import Mathlib

/-!
# webcmeo archive viewer: `assets/js/app.js`

A shallow embedding of the viewer's pure logic (escaping, ordering, fragment
encoding) and of its session state (`STATE`, the reader's DOM fields, the
bound click handlers and `location.hash`), followed by the properties the
specification states about them.

Conventions of the embedding

* A JavaScript string is a Lean `String` (a sequence of Unicode scalar values,
  i.e. a well-formed UTF-16 string). An optional string property is an
  `Option String`, `none` standing for `undefined`.
* A JavaScript number that is either an integer or `NaN` is an `Option Int`,
  `none` standing for `NaN`.
* Host functions the script calls but does not define are either parameters
  (`String.prototype.localeCompare` is a `Collator`, `Date` parsing is a
  function `String → Option Int`) or are written out after their standards
  (`Array.prototype.sort`, `encodeURIComponent`, `URLSearchParams`).
* A function that can throw returns an `Option`, `none` standing for the
  uncaught exception.
-/

namespace Webcmeo

/-! ## Data model -/

/-- One entry of `comics.json`. The fields `id` and `alt` may be absent. -/
structure ComicEntry where
  id : Option String
  title : String
  date : String
  image : String
  alt : Option String
  deriving DecidableEq, Repr

/-- JavaScript `s || d` for an optional string `s`: `undefined` and the empty
string are falsy. -/
def orStr (s : Option String) (d : String) : String :=
  match s with
  | none => d
  | some v => if v = "" then d else v

/-- JavaScript `ToString` of an optional string, as done by a template literal
and by `encodeURIComponent`: `undefined` becomes the text `undefined`. -/
def toStr (s : Option String) : String :=
  match s with
  | none => "undefined"
  | some v => v

/-! ## `escapeHtml` -/

/-- The replacement callback of `escapeHtml`: the table lookup for one matched
character, the character itself when the class `[&<>"']` does not match. -/
def escapeChar (ch : Char) : List Char :=
  if ch = '&' then "&amp;".data
  else if ch = '<' then "&lt;".data
  else if ch = '>' then "&gt;".data
  else if ch = '"' then "&quot;".data
  else if ch = Char.ofNat 39 then "&#39;".data
  else [ch]

/-- The global replace of `escapeHtml` on the characters of a string. -/
def escapeChars (cs : List Char) : List Char :=
  cs.flatMap escapeChar

/-- `escapeHtml(s)`: `(s || '').replace(/[&<>"']/g, ...)`. -/
def escapeHtml (s : Option String) : String :=
  ⟨escapeChars (orStr s "").data⟩

/-- The five entities `escapeHtml` emits, each with the character it stands
for. -/
def entityTable : List (List Char × Char) :=
  [("&amp;".data, '&'), ("&lt;".data, '<'), ("&gt;".data, '>'), ("&quot;".data, '"'),
   ("&#39;".data, Char.ofNat 39)]

/-- The text of the five entities. -/
def entities : List (List Char) :=
  entityTable.map Prod.fst

/-- The entity a text starts with, if it starts with one of the five. -/
def entityAt (cs : List Char) : Option (List Char × Char) :=
  entityTable.find? (fun e => e.1.isPrefixOf cs)

/-- Decoding of the five entities, left to right, after skipping the given
number of characters: an entity becomes its character, any other character is
kept. -/
def unescapeFrom : Nat → List Char → List Char
  | _, [] => []
  | skip + 1, _ :: t => unescapeFrom skip t
  | 0, c :: t =>
    match entityAt (c :: t) with
    | some e => e.2 :: unescapeFrom (e.1.length - 1) t
    | none => c :: unescapeFrom 0 t

/-- Decoding of the five entities in a text. This is the reading an HTML parser
gives to text in which `&` only occurs in these entities. -/
def unescapeChars (cs : List Char) : List Char :=
  unescapeFrom 0 cs

/-- Entity decoding on strings. -/
def unescapeHtml (s : String) : String :=
  ⟨unescapeChars s.data⟩

/-! ## `renderGrid` -/

/-- The template literal of `renderGrid` for one entry: the markup of a tile. -/
def tileMarkup (c : ComicEntry) : String :=
  "\n    <button class=\"tile\" type=\"button\" data-open=\"" ++ escapeHtml c.id
    ++ "\" aria-label=\"Open " ++ escapeHtml (some c.title)
    ++ "\">\n      <img class=\"thumb\" src=\"" ++ escapeHtml (some c.image)
    ++ "\" alt=\"" ++ escapeHtml (some (orStr c.alt c.title))
    ++ "\" loading=\"lazy\">\n      <h3>" ++ escapeHtml (some c.title)
    ++ "</h3>\n      <div class=\"muted small\">" ++ escapeHtml (some c.date)
    ++ " • #" ++ escapeHtml (some (orStr c.id ""))
    ++ "</div>\n    </button>\n  "

/-- The value `renderGrid` assigns to the grid's `innerHTML`:
`comics.map(...).join('')`. -/
def renderGrid (comics : List ComicEntry) : String :=
  String.join (comics.map tileMarkup)

/-! ## `byNewestFirst` and the sort of `init` -/

/-- The host collation behind `String.prototype.localeCompare`: a comparison
returning a negative, zero or positive number, which is zero on identical
strings and changes sign when its arguments are swapped. -/
structure Collator where
  compare : String → String → Int
  compare_self : ∀ x, compare x x = 0
  compare_swap : ∀ x y, compare x y < 0 ↔ 0 < compare y x

/-- The strict inequality `db !== da` on numbers: `NaN` differs from every
number, itself included. -/
def strictNe (x y : Option Int) : Bool :=
  match x, y with
  | some m, some n => m != n
  | _, _ => true

/-- The subtraction `db - da` on numbers: `NaN` when an operand is `NaN`. The
time values of two dates are integers, and the difference of two distinct ones
is modelled exactly (the floating-point result has the same sign). -/
def numSub (x y : Option Int) : Option Int :=
  match x, y with
  | some m, some n => some (m - n)
  | _, _ => none

/-- `byNewestFirst(a, b)`. `parse s` is `new Date(s).getTime()`. -/
def byNewestFirst (L : Collator) (parse : String → Option Int)
    (a b : ComicEntry) : Option Int :=
  let da := parse a.date
  let db := parse b.date
  if strictNe db da then numSub db da
  else some (L.compare (orStr b.id "") (orStr a.id ""))

/-- What `Array.prototype.sort` makes of a comparator's result: `NaN` is read
as `+0`. -/
def sortKey (v : Option Int) : Int :=
  match v with
  | none => 0
  | some n => n

/-- Insertion of `a` in front of the first element it does not have to follow:
`a` goes after `b` only when the comparator puts `b` strictly first. -/
def sortInsert {α : Type} (cmp : α → α → Option Int) (a : α) : List α → List α
  | [] => [a]
  | b :: l => if sortKey (cmp a b) ≤ 0 then a :: b :: l else b :: sortInsert cmp a l

/-- `Array.prototype.sort(cmp)` as a stable insertion sort: elements that
compare as equal keep their input order, as the language requires. With a
consistent comparator this is the one result the language allows, whatever
algorithm the host runs. With a comparator that is not consistent (here: an
unparseable date among parseable ones) the language leaves the order to the
host, and this is the order of one such algorithm. -/
def arraySort {α : Type} (cmp : α → α → Option Int) : List α → List α
  | [] => []
  | a :: l => sortInsert cmp a (arraySort cmp l)

/-- The sorted comic list of `init`: `[...comics].sort(byNewestFirst)`. -/
def sortedComics (L : Collator) (parse : String → Option Int)
    (comics : List ComicEntry) : List ComicEntry :=
  arraySort (byNewestFirst L parse) comics

/-! ### A concrete collation and date parser, to evaluate examples -/

/-- Three-way comparison of two sequences of code points, code point by code
point, a proper prefix coming first. -/
def compareCodes : List Nat → List Nat → Int
  | [], [] => 0
  | [], _ :: _ => -1
  | _ :: _, [] => 1
  | x :: xs, y :: ys => if x < y then -1 else if y < x then 1 else compareCodes xs ys

/-- Comparison of two strings by code points. -/
def compareCodePoints (x y : String) : Int :=
  compareCodes (x.data.map Char.toNat) (y.data.map Char.toNat)

/-- Comparison by code points as a collation. -/
def codePointCollator : Collator where
  compare := compareCodePoints
  compare_self := fun x => by
    unfold compareCodePoints
    generalize x.data.map Char.toNat = l
    induction l with
    | nil => rfl
    | cons a t ih => simp [compareCodes, ih]
  compare_swap := fun x y => by
    unfold compareCodePoints
    generalize x.data.map Char.toNat = l
    generalize y.data.map Char.toNat = r
    induction l generalizing r with
    | nil => cases r <;> simp [compareCodes]
    | cons a t ih =>
      cases r with
      | nil => simp [compareCodes]
      | cons b u =>
        simp only [compareCodes]
        by_cases h1 : a < b
        · have h2 : ¬ b < a := by omega
          simp [h1, h2]
        · by_cases h2 : b < a
          · simp [h1, h2]
          · simp [h1, h2, ih u]

/-- Value of a decimal digit character. -/
def digitVal (c : Char) : Option Nat :=
  if 48 ≤ c.toNat ∧ c.toNat ≤ 57 then some (c.toNat - 48) else none

/-- Value of a sequence of decimal digits. -/
def digitsVal (cs : List Char) : Option Nat :=
  cs.foldl (fun acc c => match acc, digitVal c with
    | some n, some d => some (10 * n + d)
    | _, _ => none) (some 0)

/-- Days from 1970-01-01 to the given day of the proleptic Gregorian
calendar. -/
def daysFromCivil (y m d : Nat) : Int :=
  let y1 : Int := if m ≤ 2 then (y : Int) - 1 else y
  let era : Int := y1 / 400
  let yoe : Int := y1 - era * 400
  let mp : Int := if m ≤ 2 then (m : Int) + 9 else (m : Int) - 3
  let doy : Int := (153 * mp + 2) / 5 + (d : Int) - 1
  let doe : Int := yoe * 365 + yoe / 4 - yoe / 100 + doy
  era * 146097 + doe - 719468

/-- Number of days of a month. -/
def daysInMonth (y m : Nat) : Nat :=
  if m = 2 then (if y % 4 = 0 ∧ (y % 100 ≠ 0 ∨ y % 400 = 0) then 29 else 28)
  else if m = 4 ∨ m = 6 ∨ m = 9 ∨ m = 11 then 30 else 31

/-- A date parser for the date-only form `YYYY-MM-DD`: the time value of
midnight UTC of that day, `NaN` for any other text. -/
def parseIsoDate (s : String) : Option Int :=
  match s.data with
  | [y1, y2, y3, y4, '-', m1, m2, '-', d1, d2] =>
    match digitsVal [y1, y2, y3, y4], digitsVal [m1, m2], digitsVal [d1, d2] with
    | some y, some m, some d =>
      if 1 ≤ m ∧ m ≤ 12 ∧ 1 ≤ d ∧ d ≤ daysInMonth y m then
        some (daysFromCivil y m d * 86400000)
      else none
    | _, _, _ => none
  | _ => none

/-- The date of `x` is later than the date of `y`; both dates parse. -/
def dateNewer (parse : String → Option Int) (x y : ComicEntry) : Prop :=
  match parse x.date, parse y.date with
  | some m, some n => n < m
  | _, _ => False

/-- The dates of `x` and `y` tie: they are numerically equal, or one of them
does not parse. -/
def datesTie (parse : String → Option Int) (x y : ComicEntry) : Prop :=
  match parse x.date, parse y.date with
  | some m, some n => m = n
  | _, _ => True

/-- The pair `x` before `y` is strictly descending in (date, id). -/
def StrictlyDescends (L : Collator) (parse : String → Option Int) (x y : ComicEntry) : Prop :=
  dateNewer parse x y ∨ (datesTie parse x y ∧ 0 < L.compare (orStr x.id "") (orStr y.id ""))

/-- The pair `x` before `y` is descending in (date, id), ids allowed to tie. -/
def Descends (L : Collator) (parse : String → Option Int) (x y : ComicEntry) : Prop :=
  dateNewer parse x y ∨ (datesTie parse x y ∧ 0 ≤ L.compare (orStr x.id "") (orStr y.id ""))

/-- The entries of the specification's scenario. -/
def entryA : ComicEntry :=
  { id := some "a", title := "A", date := "2024-01-03", image := "a.png", alt := none }

/-- Second entry of the scenario. -/
def entryB : ComicEntry :=
  { id := some "b", title := "B", date := "2024-01-05", image := "b.png", alt := none }

/-- Third entry of the scenario. -/
def entryC : ComicEntry :=
  { id := some "c", title := "C", date := "2024-01-05", image := "c.png", alt := none }

/-- An entry whose date does not parse. -/
def undatedA : ComicEntry :=
  { id := some "a", title := "A", date := "soon", image := "a.png", alt := none }

/-- Another entry whose date does not parse. -/
def undatedB : ComicEntry :=
  { id := some "b", title := "B", date := "soon", image := "b.png", alt := none }

/-! ## What the language requires of `Array.prototype.sort` -/

/-- The elements of a list, each with its position, counted from `k`. -/
def tagFrom {α : Type} : Nat → List α → List (Nat × α)
  | _, [] => []
  | k, a :: l => (k, a) :: tagFrom (k + 1) l

/-- The element `p` may stand before the element `q` in the sorted array: the
comparator puts `p` strictly first, or it reads the two as equal and `p` came
first in the input. -/
def Precedes {α : Type} (cmp : α → α → Option Int) (p q : Nat × α) : Prop :=
  sortKey (cmp p.2 q.2) < 0 ∨ (sortKey (cmp p.2 q.2) = 0 ∧ p.1 < q.1)

/-- Whether an element may stand before another can be computed. -/
instance decidablePrecedes {α : Type} (cmp : α → α → Option Int) :
    DecidableRel (Precedes cmp) := fun p q =>
  inferInstanceAs (Decidable (sortKey (cmp p.2 q.2) < 0 ∨ (sortKey (cmp p.2 q.2) = 0 ∧ p.1 < q.1)))

/-- The list `r` is a result the language allows for `l.sort(cmp)` under its
sort-order conditions. The list `t` is the new array, each element with the
position it had in `l`, so it plays the part of the permutation the language
speaks of. The conditions are: an element the comparator puts strictly before
another stands before it; and the sort is stable, i.e. of two elements the
comparator reads as equal the one that came first in `l` stands first. These
are the conditions a host's sort has to meet when the comparator is consistent;
when it is not, the language leaves the order to the host. -/
def SortsTo {α : Type} (cmp : α → α → Option Int) (l r : List α) : Prop :=
  ∃ t : List (Nat × α), t.Perm (tagFrom 0 l) ∧ t.map Prod.snd = r
    ∧ (∀ p ∈ t, ∀ q ∈ t, sortKey (cmp p.2 q.2) < 0 → List.Sublist [p, q] t)
    ∧ (∀ p ∈ t, ∀ q ∈ t, sortKey (cmp p.2 q.2) = 0 → p.1 < q.1 → List.Sublist [p, q] t)

/-- The comparator is consistent on the elements of `l`: "not after" is
transitive among them. -/
def Consistent {α : Type} (cmp : α → α → Option Int) (l : List α) : Prop :=
  ∀ x ∈ l, ∀ y ∈ l, ∀ z ∈ l,
    sortKey (cmp x y) ≤ 0 → sortKey (cmp y z) ≤ 0 → sortKey (cmp x z) ≤ 0

/-- The collation is transitive. -/
def Collator.Transitive (L : Collator) : Prop :=
  ∀ x y z, L.compare x y ≤ 0 → L.compare y z ≤ 0 → L.compare x z ≤ 0

/-- Length of the run an array starts with, as V8 counts it: `desc` tells
whether the run is strictly descending, `prev` is the last element of the run
so far and `n` its length. -/
def countRun {α : Type} (cmp : α → α → Option Int) (desc : Bool) (prev : α) (n : Nat) :
    List α → Nat
  | [] => n
  | cur :: rest =>
    if desc then
      if sortKey (cmp cur prev) < 0 then countRun cmp desc cur (n + 1) rest else n
    else
      if sortKey (cmp cur prev) < 0 then n else countRun cmp desc cur (n + 1) rest

/-- The binary search of V8's binary insertion: the position in the sorted
prefix `xs`, between `left` and `right`, at which `pivot` is inserted. The first
argument bounds the number of steps. -/
def insertionPoint {α : Type} (cmp : α → α → Option Int) (pivot : α) (xs : List α) :
    Nat → Nat → Nat → Nat
  | 0, left, _ => left
  | fuel + 1, left, right =>
    if left < right then
      let mid := left + (right - left) / 2
      match xs[mid]? with
      | none => left
      | some x =>
        if sortKey (cmp pivot x) < 0 then insertionPoint cmp pivot xs fuel left mid
        else insertionPoint cmp pivot xs fuel (mid + 1) right
    else left

/-- V8's binary insertion sort: each element of the second list in turn is
inserted into the sorted prefix at its insertion point. -/
def binaryInsertion {α : Type} (cmp : α → α → Option Int) : List α → List α → List α
  | sorted, [] => sorted
  | sorted, pivot :: rest =>
    let k := insertionPoint cmp pivot sorted (sorted.length + 1) 0 sorted.length
    binaryInsertion cmp (sorted.take k ++ pivot :: sorted.drop k) rest

/-- `Array.prototype.sort(cmp)` as V8 runs it on an array of fewer than 64
elements: the run the array starts with is found and reversed when it is
descending, and the remaining elements are added by binary insertion. (Longer
arrays are cut into several runs that are merged; that part is left out.) -/
def shortTimSort {α : Type} (cmp : α → α → Option Int) : List α → List α
  | [] => []
  | [a] => [a]
  | a :: b :: rest =>
    let desc := decide (sortKey (cmp b a) < 0)
    let n := countRun cmp desc b 2 rest
    let run := (a :: b :: rest).take n
    binaryInsertion cmp (if desc then run.reverse else run) ((a :: b :: rest).drop n)

/-- A manifest with an unparseable date among parseable ones. -/
def mixedComics : List ComicEntry :=
  [entryA, entryC, undatedA, entryB]

/-! ## The URL fragment: `setHash` and `getHashComic` -/

/-- The characters `encodeURIComponent` leaves as they are: ASCII letters,
digits and `- _ . ! ~ * ' ( )`. -/
def isUnreserved (c : Char) : Bool :=
  let n := c.toNat
  decide ((65 ≤ n ∧ n ≤ 90) ∨ (97 ≤ n ∧ n ≤ 122) ∨ (48 ≤ n ∧ n ≤ 57) ∨ n = 45 ∨ n = 95
    ∨ n = 46 ∨ n = 33 ∨ n = 126 ∨ n = 42 ∨ n = 39 ∨ n = 40 ∨ n = 41)

/-- The UTF-8 encoding of one code point, as a list of bytes. -/
def utf8Encode (c : Char) : List Nat :=
  let n := c.toNat
  if n < 0x80 then [n]
  else if n < 0x800 then [0xC0 + n / 64, 0x80 + n % 64]
  else if n < 0x10000 then [0xE0 + n / 4096, 0x80 + n / 64 % 64, 0x80 + n % 64]
  else [0xF0 + n / 262144, 0x80 + n / 4096 % 64, 0x80 + n / 64 % 64, 0x80 + n % 64]

/-- The upper-case hexadecimal digit of a value below 16. -/
def hexDigit (n : Nat) : Char :=
  if n < 10 then Char.ofNat (48 + n) else Char.ofNat (55 + n)

/-- The escape `%XX` of one byte. -/
def percentByte (b : Nat) : List Char :=
  ['%', hexDigit (b / 16), hexDigit (b % 16)]

/-- What `encodeURIComponent` makes of one code point. -/
def encodeChar (c : Char) : List Char :=
  if isUnreserved c then [c] else (utf8Encode c).flatMap percentByte

/-- The body of `encodeURIComponent` on the code points of a string. -/
def encodeChars (cs : List Char) : List Char :=
  cs.flatMap encodeChar

/-- The call `encodeURIComponent(x)`: the argument is converted to a string
first. A well-formed string never makes it throw. -/
def encodeURIComponent (x : Option String) : String :=
  ⟨encodeChars (toStr x).data⟩

/-- What a lead byte means to the UTF-8 decoder. -/
inductive Lead where
  | emit (c : Char)
  | more (cp rem lo hi : Nat)
  | bad
  deriving DecidableEq, Repr

/-- The decoder's reading of a byte when no sequence is pending. -/
def leadByte (b : Nat) : Lead :=
  if b ≤ 0x7F then .emit (Char.ofNat b)
  else if 0xC2 ≤ b ∧ b ≤ 0xDF then .more (b % 32) 1 0x80 0xBF
  else if 0xE0 ≤ b ∧ b ≤ 0xEF then
    .more (b % 16) 2 (if b = 0xE0 then 0xA0 else 0x80) (if b = 0xED then 0x9F else 0xBF)
  else if 0xF0 ≤ b ∧ b ≤ 0xF4 then
    .more (b % 8) 3 (if b = 0xF0 then 0x90 else 0x80) (if b = 0xF4 then 0x8F else 0xBF)
  else .bad

/-- The replacement character U+FFFD. -/
def replacementChar : Char := Char.ofNat 0xFFFD

/-- The decoding "UTF-8 decode without BOM" of the Encoding standard, errors
being replaced by U+FFFD. The first argument is the pending sequence: the code
point so far, the bytes still needed and the bounds of the next byte. A byte
that cannot continue the pending sequence ends it with an error and is then read
as a lead byte. -/
def utf8Decode : Option (Nat × Nat × Nat × Nat) → List Nat → List Char
  | none, [] => []
  | some _, [] => [replacementChar]
  | none, b :: rest =>
    match leadByte b with
    | .emit c => c :: utf8Decode none rest
    | .more cp rem lo hi => utf8Decode (some (cp, rem, lo, hi)) rest
    | .bad => replacementChar :: utf8Decode none rest
  | some (cp, rem, lo, hi), b :: rest =>
    if lo ≤ b ∧ b ≤ hi then
      if rem = 1 then Char.ofNat (cp * 64 + b % 64) :: utf8Decode none rest
      else utf8Decode (some (cp * 64 + b % 64, rem - 1, 0x80, 0xBF)) rest
    else
      replacementChar ::
        match leadByte b with
        | .emit c => c :: utf8Decode none rest
        | .more cp1 rem1 lo1 hi1 => utf8Decode (some (cp1, rem1, lo1, hi1)) rest
        | .bad => replacementChar :: utf8Decode none rest

/-- Value of a byte that is an ASCII hexadecimal digit. -/
def hexVal (b : Nat) : Option Nat :=
  if 48 ≤ b ∧ b ≤ 57 then some (b - 48)
  else if 65 ≤ b ∧ b ≤ 70 then some (b - 55)
  else if 97 ≤ b ∧ b ≤ 102 then some (b - 87)
  else none

/-- Percent-decoding of a byte sequence (URL standard): `%` followed by two
hexadecimal digits is one byte, any other byte is itself. -/
def percentDecode : List Nat → List Nat
  | [] => []
  | [b] => [b]
  | [b, c] => [b, c]
  | b :: h :: l :: rest =>
    if b = 0x25 then
      match hexVal h, hexVal l with
      | some x, some y => (16 * x + y) :: percentDecode rest
      | _, _ => b :: percentDecode (h :: l :: rest)
    else b :: percentDecode (h :: l :: rest)

/-- Strict split of a byte sequence on a separator byte. -/
def splitOnByte (sep : Nat) : List Nat → List (List Nat)
  | [] => [[]]
  | b :: rest =>
    if b = sep then [] :: splitOnByte sep rest
    else
      match splitOnByte sep rest with
      | [] => [[b]]
      | s :: ss => (b :: s) :: ss

/-- Replacement of every `+` (0x2B) by a space (0x20). -/
def plusToSpace (bs : List Nat) : List Nat :=
  bs.map (fun b => if b = 0x2B then 0x20 else b)

/-- One name-value pair of the `application/x-www-form-urlencoded` parser: the
name is what precedes the first `=` (0x3D), the value what follows it. -/
def parsePair (bs : List Nat) : String × String :=
  let name := bs.takeWhile (fun b => b != 0x3D)
  let value := (bs.dropWhile (fun b => b != 0x3D)).drop 1
  (⟨utf8Decode none (percentDecode (plusToSpace name))⟩,
   ⟨utf8Decode none (percentDecode (plusToSpace value))⟩)

/-- The `application/x-www-form-urlencoded` parser (URL standard): split on `&`
(0x26), skip empty sequences, parse each remaining one as a pair. -/
def parseUrlencoded (bs : List Nat) : List (String × String) :=
  ((splitOnByte 0x26 bs).filter (fun s => !s.isEmpty)).map parsePair

/-- `new URLSearchParams(h)` for a string `h`: one leading `?` is dropped, the
rest is UTF-8 encoded and parsed. -/
def urlSearchParams (h : String) : List (String × String) :=
  let cs := match h.data with
    | '?' :: rest => rest
    | l => l
  parseUrlencoded (cs.flatMap utf8Encode)

/-- `sp.get(name)`: the value of the first pair with that name, `null`
otherwise. -/
def searchGet (name : String) (sp : List (String × String)) : Option String :=
  (sp.find? (fun p => p.1 == name)).map (fun p => p.2)

/-- `getHashComic()` as a function of `window.location.hash`: one leading `#`
is removed, then the parameter `c` is looked up. -/
def getHashComic (locationHash : String) : Option String :=
  let h : String := match locationHash.data with
    | '#' :: rest => ⟨rest⟩
    | l => ⟨l⟩
  searchGet "c" (urlSearchParams h)

/-! ## Session state -/

/-- A navigation button of the reader: its `aria-disabled` mark and its
`onclick` property. The handlers `renderReader` binds differ only in the entry
they capture, so a bound handler is that entry; `none` is `null`. -/
structure Button where
  ariaDisabled : Bool
  onclick : Option ComicEntry
  deriving DecidableEq, Repr

/-- The state the script reads and writes: `STATE.comics`,
`STATE.currentIndex`, the text and attributes of the reader, its three
navigation buttons, the `open` attribute of the reader, the page's overflow
style and `window.location.hash`. -/
structure State where
  comics : List ComicEntry
  currentIndex : Int
  readerTitle : String
  readerMeta : String
  readerImgSrc : String
  readerImgAlt : String
  btnPrev : Button
  btnNext : Button
  btnLatest : Button
  readerOpen : Bool
  bodyOverflow : String
  locationHash : String
  deriving DecidableEq, Repr

/-- Array lookup `xs[i]` for an integer `i`: `undefined` outside the array. -/
def getAt {α : Type} (xs : List α) (i : Int) : Option α :=
  if i < 0 then none else xs[i.toNat]?

/-- `xs.findIndex(p)` searching from position `k`. -/
def findIndexFrom {α : Type} (p : α → Bool) : List α → Nat → Int
  | [], _ => -1
  | a :: l, k => if p a then (k : Int) else findIndexFrom p l (k + 1)

/-- `xs.findIndex(p)`: the first position whose element satisfies `p`, `-1`
when there is none. -/
def findIndex {α : Type} (p : α → Bool) (xs : List α) : Int :=
  findIndexFrom p xs 0

/-- `setBtn(id, enabled, onClick)` on an existing button. -/
def setBtn (enabled : Bool) (onClick : Option ComicEntry) : Button :=
  if !enabled then { ariaDisabled := true, onclick := none }
  else { ariaDisabled := false, onclick := onClick }

/-- `setHash(idOrKey)`: the fragment becomes `c=` followed by the encoded
argument. The `hash` setter of `URL` escapes only characters that
`encodeURIComponent` never outputs, so `location.hash` reads `#` followed by
the assigned text. -/
def setHash (idOrKey : Option String) (s : State) : State :=
  { s with locationHash := "#c=" ++ encodeURIComponent idOrKey }

/-- `openReader()`. -/
def openReader (s : State) : State :=
  { s with readerOpen := true, bodyOverflow := "hidden" }

/-- `closeReader()`. -/
def closeReader (s : State) : State :=
  { s with readerOpen := false, bodyOverflow := "" }

/-- The writes of `renderReader()` once it has read `comic`: the reader's text
and image, then the three buttons through `setBtn`. An entry is an object, so
`!!prev` holds exactly when the lookup found one. The image preloading at the
end leaves no trace in the state. -/
def renderComic (s : State) (comic : ComicEntry) : State :=
  let prev := getAt s.comics (s.currentIndex + 1)
  let next := getAt s.comics (s.currentIndex - 1)
  let latest := getAt s.comics 0
  { s with
    readerTitle := comic.title
    readerMeta := comic.date ++ " • #" ++ toStr comic.id
    readerImgSrc := comic.image
    readerImgAlt := orStr comic.alt comic.title
    btnPrev := setBtn prev.isSome prev
    btnNext := setBtn next.isSome next
    btnLatest := setBtn latest.isSome latest }

/-- `renderReader()`. Reading `comic.title` throws when
`STATE.comics[STATE.currentIndex]` is `undefined`. -/
def renderReader (s : State) : Option State :=
  match getAt s.comics s.currentIndex with
  | none => none
  | some comic => some (renderComic s comic)

/-- `openComicById(id)`. -/
def openComicById (id : Option String) (s : State) : Option State :=
  let idx := findIndex (fun c => decide (c.id = id)) s.comics
  if idx = -1 then some s
  else
    match renderReader { s with currentIndex := idx } with
    | none => none
    | some s1 => some (openReader (setHash id s1))

/-- A click on the Previous button: nothing when no handler is bound, else
`STATE.currentIndex += 1; renderReader(); setHash(prev.id)`. -/
def clickPrev (s : State) : Option State :=
  match s.btnPrev.onclick with
  | none => some s
  | some prev =>
    match renderReader { s with currentIndex := s.currentIndex + 1 } with
    | none => none
    | some s1 => some (setHash prev.id s1)

/-- A click on the Next button: nothing when no handler is bound, else
`STATE.currentIndex -= 1; renderReader(); setHash(next.id)`. -/
def clickNext (s : State) : Option State :=
  match s.btnNext.onclick with
  | none => some s
  | some next =>
    match renderReader { s with currentIndex := s.currentIndex - 1 } with
    | none => none
    | some s1 => some (setHash next.id s1)

/-- A click on the Latest button: nothing when no handler is bound, else
`STATE.currentIndex = 0; renderReader(); setHash(latest.id)`. -/
def clickLatest (s : State) : Option State :=
  match s.btnLatest.onclick with
  | none => some s
  | some latest =>
    match renderReader { s with currentIndex := 0 } with
    | none => none
    | some s1 => some (setHash latest.id s1)

/-- The `keydown` listener of `init`. -/
def keydown (key : String) (s : State) : Option State :=
  let s1 := if key = "Escape" then closeReader s else s
  if !s1.readerOpen then some s1
  else if key = "ArrowLeft" then clickPrev s1
  else if key = "ArrowRight" then clickNext s1
  else some s1

/-- The state `init` has built when it reaches its last step: the sorted list
in `STATE.comics`, `STATE.currentIndex` still `0`, the reader closed and not yet
rendered, no handler bound to its buttons (the page's markup binds none), and
the fragment the page was loaded with. -/
def initState (comics : List ComicEntry) (locationHash : String) : State :=
  { comics := comics
    currentIndex := 0
    readerTitle := ""
    readerMeta := ""
    readerImgSrc := ""
    readerImgAlt := ""
    btnPrev := { ariaDisabled := false, onclick := none }
    btnNext := { ariaDisabled := false, onclick := none }
    btnLatest := { ariaDisabled := false, onclick := none }
    readerOpen := false
    bodyOverflow := ""
    locationHash := locationHash }

/-- The last step of `init`: `const cid = getHashComic(); if (cid)
openComicById(cid)`. The empty string is falsy. -/
def bootstrap (s : State) : Option State :=
  match getHashComic s.locationHash with
  | none => some s
  | some cid => if cid = "" then some s else openComicById (some cid) s

/-- `init()` from the manifest's `comics` and the fragment of the page's URL:
sort, stop on an empty archive, else open the comic the fragment names. -/
def init (L : Collator) (parse : String → Option Int) (comics : List ComicEntry)
    (locationHash : String) : Option State :=
  let s := initState (sortedComics L parse comics) locationHash
  if s.comics.length = 0 then some s else bootstrap s

/-- The events a session consists of once `init` has run. -/
inductive Action where
  | openComicById (id : Option String)
  | clickPrev
  | clickNext
  | clickLatest
  | closeReader
  | keydown (key : String)
  deriving DecidableEq, Repr

/-- The effect of one event. -/
def step (a : Action) (s : State) : Option State :=
  match a with
  | .openComicById id => openComicById id s
  | .clickPrev => clickPrev s
  | .clickNext => clickNext s
  | .clickLatest => clickLatest s
  | .closeReader => some (closeReader s)
  | .keydown key => keydown key s

/-- The effect of a sequence of events, stopping at the first exception. -/
def run : List Action → State → Option State
  | [], s => some s
  | a :: as, s =>
    match step a s with
    | none => none
    | some s1 => run as s1

/-! ## What the properties speak of -/

/-- The reader shows the entry `c`: its title, meta line, image and alternative
text are those `renderReader` writes for `c`. -/
def Shows (s : State) (c : ComicEntry) : Prop :=
  s.readerTitle = c.title ∧ s.readerMeta = c.date ++ " • #" ++ toStr c.id
    ∧ s.readerImgSrc = c.image ∧ s.readerImgAlt = orStr c.alt c.title

/-- No handler is bound to the navigation buttons. -/
def Unbound (s : State) : Prop :=
  s.btnPrev.onclick = none ∧ s.btnNext.onclick = none ∧ s.btnLatest.onclick = none

/-- The reader, its buttons and the fragment agree with `STATE.currentIndex`:
rendering again changes nothing, and the fragment is the one `setHash` writes
for the id of the current entry. -/
def Synced (s : State) : Prop :=
  renderReader s = some s
    ∧ ∃ c, getAt s.comics s.currentIndex = some c
        ∧ s.locationHash = "#c=" ++ encodeURIComponent c.id

/-- The invariant of a session: either the reader was never rendered (closed,
no handler bound, index 0), or reader, buttons and fragment agree with the
current index. -/
def SessionInv (s : State) : Prop :=
  (Unbound s ∧ s.readerOpen = false ∧ s.currentIndex = 0) ∨ Synced s

/-- The navigation actions that succeed in a state: opening an id some entry
has, a click on a button with a bound handler, an arrow key doing such a click
while the reader is open. -/
def Navigates (a : Action) (s : State) : Prop :=
  match a with
  | .openComicById id => ∃ c ∈ s.comics, c.id = id
  | .clickPrev => s.btnPrev.onclick ≠ none
  | .clickNext => s.btnNext.onclick ≠ none
  | .clickLatest => s.btnLatest.onclick ≠ none
  | .closeReader => False
  | .keydown key =>
    s.readerOpen = true
      ∧ ((key = "ArrowLeft" ∧ s.btnPrev.onclick ≠ none)
        ∨ (key = "ArrowRight" ∧ s.btnNext.onclick ≠ none))

/-- The sorted list of the specification's scenario: `c`, `b`, `a`. -/
def scenarioComics : List ComicEntry :=
  [entryC, entryB, entryA]

/-- The state of the scenario once `b` has been opened from the grid. -/
def scenarioAtB : State :=
  openReader (setHash (some "b")
    (renderComic { initState scenarioComics "" with currentIndex := 1 } entryB))

/-- An entry whose id is the empty string. -/
def blankIdEntry : ComicEntry :=
  { id := some "", title := "Untitled", date := "2024-01-01", image := "u.png", alt := none }

/-- Two entries that share the id `x`: the first. -/
def twinFirst : ComicEntry :=
  { id := some "x", title := "First", date := "2024-01-01", image := "1.png", alt := none }

/-- Two entries that share the id `x`: the second. -/
def twinSecond : ComicEntry :=
  { id := some "x", title := "Second", date := "2024-01-01", image := "2.png", alt := none }

/-! # Properties

## Escaping -/

theorem orStr_some_empty (s : String) : orStr (some s) "" = s := by
  simp only [orStr]
  split_ifs with h
  · exact h.symm
  · rfl

theorem escapeChar_cases (ch : Char) :
    (ch = '&' ∧ escapeChar ch = "&amp;".data) ∨ (ch = '<' ∧ escapeChar ch = "&lt;".data)
    ∨ (ch = '>' ∧ escapeChar ch = "&gt;".data) ∨ (ch = '"' ∧ escapeChar ch = "&quot;".data)
    ∨ (ch = Char.ofNat 39 ∧ escapeChar ch = "&#39;".data)
    ∨ (ch ≠ '&' ∧ ch ≠ '<' ∧ ch ≠ '>' ∧ ch ≠ '"' ∧ ch ≠ Char.ofNat 39 ∧ escapeChar ch = [ch]) := by
  unfold escapeChar
  by_cases h1 : ch = '&'
  · left; subst h1; exact ⟨rfl, rfl⟩
  by_cases h2 : ch = '<'
  · right; left; subst h2; exact ⟨rfl, rfl⟩
  by_cases h3 : ch = '>'
  · right; right; left; subst h3; exact ⟨rfl, rfl⟩
  by_cases h4 : ch = '"'
  · right; right; right; left; subst h4; exact ⟨rfl, rfl⟩
  by_cases h5 : ch = Char.ofNat 39
  · right; right; right; right; left; subst h5; exact ⟨rfl, rfl⟩
  · right; right; right; right; right
    simp [h1, h2, h3, h4, h5]

theorem unescapeFrom_skip (pre t : List Char) :
    unescapeFrom pre.length (pre ++ t) = unescapeFrom 0 t := by
  induction pre with
  | nil => rfl
  | cons c p ih => simpa [unescapeFrom] using ih

theorem entityAt_of_ne (c : Char) (t : List Char) (h : c ≠ '&') : entityAt (c :: t) = none := by
  have h' : ('&' == c) = false := by simpa using fun e => h e.symm
  simp [entityAt, entityTable, List.find?, List.isPrefixOf, h']

theorem unescapeFrom_entity (e : List Char × Char) (c : Char) (p t : List Char)
    (he : e.1 = c :: p) (h : entityAt (c :: p ++ t) = some e) :
    unescapeFrom 0 (e.1 ++ t) = e.2 :: unescapeFrom 0 t := by
  rw [he]
  show unescapeFrom 0 (c :: (p ++ t)) = _
  rw [unescapeFrom]
  have h2 : entityAt (c :: (p ++ t)) = some e := h
  rw [h2]
  simp only [he, List.length_cons, Nat.add_sub_cancel]
  rw [unescapeFrom_skip]

theorem unescapeChars_escapeChar (ch : Char) (t : List Char) :
    unescapeFrom 0 (escapeChar ch ++ t) = ch :: unescapeFrom 0 t := by
  rcases escapeChar_cases ch with h | h | h | h | h | h
  · rw [h.2, h.1]
    exact unescapeFrom_entity ("&amp;".data, '&') '&' "amp;".data t rfl
      (by simp [entityAt, entityTable, List.find?, List.isPrefixOf])
  · rw [h.2, h.1]
    exact unescapeFrom_entity ("&lt;".data, '<') '&' "lt;".data t rfl
      (by simp [entityAt, entityTable, List.find?, List.isPrefixOf])
  · rw [h.2, h.1]
    exact unescapeFrom_entity ("&gt;".data, '>') '&' "gt;".data t rfl
      (by simp [entityAt, entityTable, List.find?, List.isPrefixOf])
  · rw [h.2, h.1]
    exact unescapeFrom_entity ("&quot;".data, '"') '&' "quot;".data t rfl
      (by simp [entityAt, entityTable, List.find?, List.isPrefixOf])
  · rw [h.2, h.1]
    exact unescapeFrom_entity ("&#39;".data, Char.ofNat 39) '&' "#39;".data t rfl
      (by simp [entityAt, entityTable, List.find?, List.isPrefixOf])
  · rw [h.2.2.2.2.2]
    show unescapeFrom 0 (ch :: t) = _
    rw [unescapeFrom, entityAt_of_ne ch t h.1]

theorem unescapeChars_escapeChars (cs : List Char) :
    unescapeChars (escapeChars cs) = cs := by
  induction cs with
  | nil => rfl
  | cons c t ih =>
    have : escapeChars (c :: t) = escapeChar c ++ escapeChars t := by
      simp [escapeChars, List.flatMap_cons]
    unfold unescapeChars at ih ⊢
    rw [this, unescapeChars_escapeChar, ih]

theorem escapeChars_cons (c : Char) (t : List Char) :
    escapeChars (c :: t) = escapeChar c ++ escapeChars t := by
  simp [escapeChars, List.flatMap_cons]

theorem escapeChar_no_markup (ch x : Char) (hx : x ∈ escapeChar ch) :
    x ≠ '<' ∧ x ≠ '>' ∧ x ≠ '"' ∧ x ≠ Char.ofNat 39 := by
  rcases escapeChar_cases ch with h | h | h | h | h | h
  · rw [h.2] at hx
    simp at hx
    rcases hx with r | r | r | r | r <;> subst r <;> decide
  · rw [h.2] at hx
    simp at hx
    rcases hx with r | r | r | r <;> subst r <;> decide
  · rw [h.2] at hx
    simp at hx
    rcases hx with r | r | r | r <;> subst r <;> decide
  · rw [h.2] at hx
    simp at hx
    rcases hx with r | r | r | r | r | r <;> subst r <;> decide
  · rw [h.2] at hx
    simp at hx
    rcases hx with r | r | r | r | r <;> subst r <;> decide
  · rw [h.2.2.2.2.2] at hx
    simp at hx
    subst hx
    exact ⟨h.2.1, h.2.2.1, h.2.2.2.1, h.2.2.2.2.1⟩

theorem escapeChars_no_markup (cs : List Char) (x : Char) (hx : x ∈ escapeChars cs) :
    x ≠ '<' ∧ x ≠ '>' ∧ x ≠ '"' ∧ x ≠ Char.ofNat 39 := by
  simp only [escapeChars, List.mem_flatMap] at hx
  obtain ⟨ch, _, h⟩ := hx
  exact escapeChar_no_markup ch x h

theorem amp_head_of_tail_free (l pre suf : List Char) (hl : '&' ∉ l.tail)
    (h : l = pre ++ '&' :: suf) : pre = [] := by
  rcases pre with _ | ⟨p, pre⟩
  · rfl
  · exfalso
    apply hl
    rw [h]
    simp

/-- In the text `escapeHtml` emits for one character, `&` can only be the first
character, and then the text is one of the five entities. -/
theorem escapeChar_amp (ch : Char) (pre suf : List Char)
    (h : escapeChar ch = pre ++ '&' :: suf) : pre = [] ∧ escapeChar ch ∈ entities := by
  rcases escapeChar_cases ch with c | c | c | c | c | c
  · rw [c.2] at h ⊢
    exact ⟨amp_head_of_tail_free _ pre suf (by decide) h, by decide⟩
  · rw [c.2] at h ⊢
    exact ⟨amp_head_of_tail_free _ pre suf (by decide) h, by decide⟩
  · rw [c.2] at h ⊢
    exact ⟨amp_head_of_tail_free _ pre suf (by decide) h, by decide⟩
  · rw [c.2] at h ⊢
    exact ⟨amp_head_of_tail_free _ pre suf (by decide) h, by decide⟩
  · rw [c.2] at h ⊢
    exact ⟨amp_head_of_tail_free _ pre suf (by decide) h, by decide⟩
  · exfalso
    rw [c.2.2.2.2.2] at h
    rcases pre with _ | ⟨p, pre⟩
    · simp at h
      exact c.1 h.1
    · simp at h

/-- In the text `escapeHtml` emits, every `&` starts one of the five
entities. -/
theorem escapeChars_amp (cs : List Char) (pre suf : List Char)
    (h : escapeChars cs = pre ++ '&' :: suf) : ∃ e ∈ entities, e <+: '&' :: suf := by
  induction cs generalizing pre with
  | nil => simp [escapeChars] at h
  | cons c t ih =>
    rw [escapeChars_cons, List.append_eq_append_iff] at h
    rcases h with ⟨a, _, ha⟩ | ⟨b, hb, hb2⟩
    · exact ih a ha
    · rcases b with _ | ⟨x, b⟩
      · exact ih [] (by simpa using hb2.symm)
      · simp only [List.cons_append, List.cons.injEq] at hb2
        obtain ⟨hx, hsuf⟩ := hb2
        subst hx
        obtain ⟨hpre, hmem⟩ := escapeChar_amp c pre b hb
        subst hpre
        refine ⟨escapeChar c, hmem, ?_⟩
        rw [hb, hsuf]
        exact ⟨escapeChars t, by simp⟩

theorem escapeHtml_data (s : Option String) :
    (escapeHtml s).data = escapeChars (orStr s "").data := rfl

theorem escapeHtml_count_zero (s : Option String) (x : Char)
    (hx : x = '<' ∨ x = '>' ∨ x = '"' ∨ x = Char.ofNat 39) :
    (escapeHtml s).data.count x = 0 := by
  rw [List.count_eq_zero]
  intro hmem
  have h := escapeChars_no_markup _ x hmem
  rcases hx with r | r | r | r
  · exact h.1 r
  · exact h.2.1 r
  · exact h.2.2.1 r
  · exact h.2.2.2 r

/-- The markup of a tile has the markup characters of its template and no
others, whatever the entry holds. -/
theorem tileMarkup_counts (c : ComicEntry) :
    (tileMarkup c).data.count '<' = 7 ∧ (tileMarkup c).data.count '>' = 7
    ∧ (tileMarkup c).data.count '"' = 18 ∧ (tileMarkup c).data.count (Char.ofNat 39) = 0 := by
  refine ⟨?_, ?_, ?_, ?_⟩
  · simp only [tileMarkup, String.data_append, List.count_append,
      escapeHtml_count_zero _ '<' (Or.inl rfl)]
    rfl
  · simp only [tileMarkup, String.data_append, List.count_append,
      escapeHtml_count_zero _ '>' (Or.inr (Or.inl rfl))]
    rfl
  · simp only [tileMarkup, String.data_append, List.count_append,
      escapeHtml_count_zero _ '"' (Or.inr (Or.inr (Or.inl rfl)))]
    rfl
  · simp only [tileMarkup, String.data_append, List.count_append,
      escapeHtml_count_zero _ (Char.ofNat 39) (Or.inr (Or.inr (Or.inr rfl)))]
    rfl

theorem string_join_data (l : List String) :
    (String.join l).data = (l.map String.data).flatten := by
  have h : ∀ (acc : String) (l : List String),
      (l.foldl (fun r s => r ++ s) acc).data = acc.data ++ (l.map String.data).flatten := by
    intro acc l
    induction l generalizing acc with
    | nil => simp
    | cons a t ih => simp [ih, String.data_append]
  simp [String.join, h]

theorem renderGrid_count (comics : List ComicEntry) (x : Char) (n : Nat)
    (h : ∀ c, (tileMarkup c).data.count x = n) :
    (renderGrid comics).data.count x = n * comics.length := by
  unfold renderGrid
  rw [string_join_data]
  induction comics with
  | nil => simp
  | cons c t ih =>
    simp only [List.map_cons, List.flatten_cons, List.count_append, List.length_cons, h c]
    rw [ih]
    ring

/-- C6. Every entry field `renderGrid` puts into a tile passes through
`escapeHtml`: a tile is its fixed template around the escaped `id`, `title`,
`image`, `alt || title` and `date`, so the grid holds the markup characters of
its templates and no others (7 `<`, 7 `>`, 18 double quotes and no apostrophe
per tile). For every string `s`, `escapeHtml(s)` holds none of `<`, `>`, `"`,
`'`; every `&` in it is the first character of one of the five entities; and
decoding the five entities gives back `s`. The title `<img onerror=alert(1)>`
is emitted as `&lt;img onerror=alert(1)&gt;`. -/
theorem escapeHtml_tile_fields_escaped (comics : List ComicEntry) (c : ComicEntry)
    (s : String) :
    tileMarkup c =
      "\n    <button class=\"tile\" type=\"button\" data-open=\"" ++ escapeHtml c.id
      ++ "\" aria-label=\"Open " ++ escapeHtml (some c.title)
      ++ "\">\n      <img class=\"thumb\" src=\"" ++ escapeHtml (some c.image)
      ++ "\" alt=\"" ++ escapeHtml (some (orStr c.alt c.title))
      ++ "\" loading=\"lazy\">\n      <h3>" ++ escapeHtml (some c.title)
      ++ "</h3>\n      <div class=\"muted small\">" ++ escapeHtml (some c.date)
      ++ " • #" ++ escapeHtml (some (orStr c.id ""))
      ++ "</div>\n    </button>\n  "
    ∧ (renderGrid comics).data.count '<' = 7 * comics.length
    ∧ (renderGrid comics).data.count '>' = 7 * comics.length
    ∧ (renderGrid comics).data.count '"' = 18 * comics.length
    ∧ (renderGrid comics).data.count (Char.ofNat 39) = 0
    ∧ (∀ x ∈ (escapeHtml (some s)).data,
        x ≠ '<' ∧ x ≠ '>' ∧ x ≠ '"' ∧ x ≠ Char.ofNat 39)
    ∧ (∀ pre suf : List Char, (escapeHtml (some s)).data = pre ++ '&' :: suf →
        ∃ e ∈ entities, e <+: '&' :: suf)
    ∧ unescapeHtml (escapeHtml (some s)) = s
    ∧ escapeHtml (some "<img onerror=alert(1)>") = "&lt;img onerror=alert(1)&gt;"
    ∧ unescapeHtml "&lt;img onerror=alert(1)&gt;" = "<img onerror=alert(1)>" := by
  refine ⟨rfl, ?_, ?_, ?_, ?_, ?_, ?_, ?_, by decide, by decide⟩
  · exact renderGrid_count comics _ 7 (fun c => (tileMarkup_counts c).1)
  · exact renderGrid_count comics _ 7 (fun c => (tileMarkup_counts c).2.1)
  · exact renderGrid_count comics _ 18 (fun c => (tileMarkup_counts c).2.2.1)
  · simpa using renderGrid_count comics _ 0 (fun c => (tileMarkup_counts c).2.2.2)
  · intro x hx
    exact escapeChars_no_markup _ x hx
  · intro pre suf h
    exact escapeChars_amp _ pre suf h
  · unfold unescapeHtml
    rw [escapeHtml_data, unescapeChars_escapeChars, orStr_some_empty]

/-! ## Ordering -/

theorem Collator.total (L : Collator) (x y : String) :
    L.compare x y ≤ 0 ∨ L.compare y x ≤ 0 := by
  by_cases h : L.compare x y ≤ 0
  · exact Or.inl h
  · right
    have h1 : 0 < L.compare x y := by omega
    have := (L.compare_swap y x).mpr h1
    omega

theorem Collator.nonpos_iff (L : Collator) (x y : String) :
    L.compare y x ≤ 0 ↔ 0 ≤ L.compare x y := by
  have h := L.compare_swap x y
  constructor
  · intro h1
    by_contra h2
    have : 0 < L.compare y x := h.mp (by omega)
    omega
  · intro h1
    by_contra h2
    have : L.compare x y < 0 := h.mpr (by omega)
    omega

theorem byNewestFirst_dates_differ (L : Collator) (parse : String → Option Int)
    (a b : ComicEntry) (m n : Int) (ha : parse a.date = some m) (hb : parse b.date = some n)
    (hne : m ≠ n) : byNewestFirst L parse a b = some (n - m) := by
  have : (n != m) = true := by simpa using fun e => hne e.symm
  simp [byNewestFirst, ha, hb, strictNe, numSub, this]

theorem byNewestFirst_dates_equal (L : Collator) (parse : String → Option Int)
    (a b : ComicEntry) (m : Int) (ha : parse a.date = some m) (hb : parse b.date = some m) :
    byNewestFirst L parse a b = some (L.compare (orStr b.id "") (orStr a.id "")) := by
  simp [byNewestFirst, ha, hb, strictNe]

theorem byNewestFirst_nan (L : Collator) (parse : String → Option Int)
    (a b : ComicEntry) (h : parse a.date = none ∨ parse b.date = none) :
    byNewestFirst L parse a b = none := by
  rcases h with h | h
  · cases hb : parse b.date <;> simp [byNewestFirst, h, hb, strictNe, numSub]
  · cases ha : parse a.date <;> simp [byNewestFirst, h, ha, strictNe, numSub]

/-- Of two entries, the comparator lets at least one go first. -/
theorem byNewestFirst_total (L : Collator) (parse : String → Option Int)
    (a b : ComicEntry) :
    sortKey (byNewestFirst L parse a b) ≤ 0 ∨ sortKey (byNewestFirst L parse b a) ≤ 0 := by
  cases ha : parse a.date with
  | none =>
    left
    rw [byNewestFirst_nan L parse a b (Or.inl ha)]
    simp [sortKey]
  | some m =>
    cases hb : parse b.date with
    | none =>
      left
      rw [byNewestFirst_nan L parse a b (Or.inr hb)]
      simp [sortKey]
    | some n =>
      by_cases hmn : m = n
      · subst hmn
        rw [byNewestFirst_dates_equal L parse a b m ha hb,
          byNewestFirst_dates_equal L parse b a m hb ha]
        exact L.total _ _
      · rw [byNewestFirst_dates_differ L parse a b m n ha hb hmn,
          byNewestFirst_dates_differ L parse b a n m hb ha (fun e => hmn e.symm)]
        simp only [sortKey]
        omega

theorem sortInsert_perm {α : Type} (cmp : α → α → Option Int) (a : α) (l : List α) :
    (sortInsert cmp a l).Perm (a :: l) := by
  induction l with
  | nil => exact List.Perm.refl _
  | cons b t ih =>
    simp only [sortInsert]
    split_ifs
    · exact List.Perm.refl _
    · exact (ih.cons b).trans (List.Perm.swap a b t)

theorem arraySort_perm {α : Type} (cmp : α → α → Option Int) (l : List α) :
    (arraySort cmp l).Perm l := by
  induction l with
  | nil => exact List.Perm.refl _
  | cons a t ih =>
    simp only [arraySort]
    exact (sortInsert_perm cmp a _).trans (ih.cons a)

/-- Inserting into a list whose neighbours are in comparator order gives such
a list, as long as the comparator lets one of any two elements go first. -/
theorem sortInsert_chain {α : Type} (cmp : α → α → Option Int)
    (htot : ∀ a b, sortKey (cmp a b) ≤ 0 ∨ sortKey (cmp b a) ≤ 0) (a : α) (l : List α)
    (hl : List.Chain' (fun x y => sortKey (cmp x y) ≤ 0) l) :
    List.Chain' (fun x y => sortKey (cmp x y) ≤ 0) (sortInsert cmp a l) := by
  induction l with
  | nil => simp [sortInsert]
  | cons b t ih =>
    simp only [sortInsert]
    split_ifs with h
    · exact List.Chain'.cons h hl
    · have hba : sortKey (cmp b a) ≤ 0 := (htot a b).resolve_left h
      have ht := ih hl.tail
      cases t with
      | nil => simpa [sortInsert] using hba
      | cons c u =>
        have hbc : sortKey (cmp b c) ≤ 0 := by
          rw [List.chain'_cons] at hl
          exact hl.1
        simp only [sortInsert] at ht ⊢
        split_ifs at ht ⊢ with h2
        · exact List.Chain'.cons hba ht
        · exact List.Chain'.cons hbc ht

theorem arraySort_chain {α : Type} (cmp : α → α → Option Int)
    (htot : ∀ a b, sortKey (cmp a b) ≤ 0 ∨ sortKey (cmp b a) ≤ 0) (l : List α) :
    List.Chain' (fun x y => sortKey (cmp x y) ≤ 0) (arraySort cmp l) := by
  induction l with
  | nil => simp [arraySort]
  | cons a t ih => exact sortInsert_chain cmp htot a _ ih

/-- A list whose neighbours are in comparator order is left as it is. -/
theorem arraySort_of_chain {α : Type} (cmp : α → α → Option Int) (l : List α)
    (hl : List.Chain' (fun x y => sortKey (cmp x y) ≤ 0) l) : arraySort cmp l = l := by
  induction l with
  | nil => rfl
  | cons a t ih =>
    simp only [arraySort]
    rw [ih hl.tail]
    cases t with
    | nil => rfl
    | cons b u =>
      rw [List.chain'_cons] at hl
      simp [sortInsert, hl.1]

theorem chain_and_pairwise {α : Type} (R S : α → α → Prop) (l : List α)
    (hR : List.Chain' R l) (hS : List.Pairwise S l) :
    List.Chain' (fun x y => R x y ∧ S x y) l := by
  induction l with
  | nil => simp
  | cons a t ih =>
    cases t with
    | nil => simp
    | cons b u =>
      rw [List.chain'_cons] at hR ⊢
      rw [List.pairwise_cons] at hS
      exact ⟨⟨hR.1, hS.1 b (by simp)⟩, ih hR.2 hS.2⟩

theorem chain_imp_of_mem {α : Type} (R S : α → α → Prop) (l : List α)
    (hR : List.Chain' R l) (h : ∀ a ∈ l, ∀ b ∈ l, R a b → S a b) : List.Chain' S l := by
  induction l with
  | nil => simp
  | cons a t ih =>
    cases t with
    | nil => simp
    | cons b u =>
      rw [List.chain'_cons] at hR ⊢
      refine ⟨h a (by simp) b (by simp) hR.1, ih hR.2 ?_⟩
      intro x hx y hy hxy
      exact h x (List.mem_cons_of_mem _ hx) y (List.mem_cons_of_mem _ hy) hxy

theorem Collator.eq_zero_comm (L : Collator) (x y : String) :
    L.compare x y = 0 → L.compare y x = 0 := by
  intro h
  have h1 := L.compare_swap x y
  have h2 := L.compare_swap y x
  by_contra hne
  rcases lt_or_gt_of_ne hne with hlt | hgt
  · have := h2.mp hlt
    omega
  · have := h1.mpr hgt
    omega

/-- What comparator order means for two entries whose dates parse. -/
theorem descends_of_sortKey (L : Collator) (parse : String → Option Int) (x y : ComicEntry)
    (hx : parse x.date ≠ none) (hy : parse y.date ≠ none)
    (h : sortKey (byNewestFirst L parse x y) ≤ 0) : Descends L parse x y := by
  cases hm : parse x.date with
  | none => exact absurd hm hx
  | some m =>
    cases hn : parse y.date with
    | none => exact absurd hn hy
    | some n =>
      by_cases hmn : m = n
      · subst hmn
        rw [byNewestFirst_dates_equal L parse x y m hm hn] at h
        right
        exact ⟨by simp [datesTie, hm, hn], (L.nonpos_iff _ _).mp h⟩
      · rw [byNewestFirst_dates_differ L parse x y m n hm hn hmn] at h
        left
        simp only [sortKey] at h
        simp only [dateNewer, hm, hn]
        omega

/-- C7 (as amended). For two entries whose dates both parse, `byNewestFirst`
orders by date descending: with different dates its value is a number that is
negative when `a` is newer and positive when `b` is. With numerically equal
dates its value is the collation of the ids in descending order, a missing id
read as the empty string: negative when `id(a) > id(b)`, positive when
`id(a) < id(b)`, zero when the ids are equal. When one or both dates do not
parse, the value is `NaN` whatever the ids are. -/
theorem byNewestFirst_sign (L : Collator) (parse : String → Option Int) (a b : ComicEntry) :
    (∀ m n, parse a.date = some m → parse b.date = some n → m ≠ n →
      ∃ r, byNewestFirst L parse a b = some r ∧ (r < 0 ↔ n < m) ∧ (0 < r ↔ m < n))
    ∧ (∀ m, parse a.date = some m → parse b.date = some m →
      ∃ r, byNewestFirst L parse a b = some r
        ∧ r = L.compare (orStr b.id "") (orStr a.id "")
        ∧ (r < 0 ↔ 0 < L.compare (orStr a.id "") (orStr b.id ""))
        ∧ (0 < r ↔ L.compare (orStr a.id "") (orStr b.id "") < 0)
        ∧ (orStr a.id "" = orStr b.id "" → r = 0))
    ∧ (parse a.date = none ∨ parse b.date = none → byNewestFirst L parse a b = none) := by
  refine ⟨?_, ?_, ?_⟩
  · intro m n ha hb hne
    refine ⟨n - m, byNewestFirst_dates_differ L parse a b m n ha hb hne, ?_, ?_⟩ <;> omega
  · intro m ha hb
    refine ⟨_, byNewestFirst_dates_equal L parse a b m ha hb, rfl, ?_, ?_, ?_⟩
    · exact L.compare_swap _ _
    · exact (L.compare_swap _ _).symm
    · intro h
      rw [h]
      exact L.compare_self _
  · exact byNewestFirst_nan L parse a b

/-- C7, an instance: `c` and `b` of the scenario have the date 2024-01-05, and
`byNewestFirst(c, b)` is negative since `c > b`. -/
theorem byNewestFirst_sign_witness :
    ∃ r, byNewestFirst codePointCollator parseIsoDate entryC entryB = some r
      ∧ r = codePointCollator.compare "b" "c" ∧ r < 0 := by
  obtain ⟨r, h1, h2, h3, _⟩ :=
    (byNewestFirst_sign codePointCollator parseIsoDate entryC entryB).2.1 1704412800000
      (by decide) (by decide)
  exact ⟨r, h1, h2, h3.mpr (by decide)⟩

/-- C7 fails as stated: the dates of `undatedA` and `undatedB` do not parse and
`id(a) < id(b)`, yet `byNewestFirst` is `NaN`, which is not positive and which
the sort reads as zero. -/
theorem byNewestFirst_unparseable_counterexample :
    parseIsoDate undatedA.date = none ∧ parseIsoDate undatedB.date = none
    ∧ codePointCollator.compare (orStr undatedA.id "") (orStr undatedB.id "") < 0
    ∧ byNewestFirst codePointCollator parseIsoDate undatedA undatedB = none
    ∧ sortKey (byNewestFirst codePointCollator parseIsoDate undatedA undatedB) = 0 := by
  decide

theorem strictlyDescends_of_descends (L : Collator) (parse : String → Option Int)
    (x y : ComicEntry) (hx : parse x.date ≠ none) (hy : parse y.date ≠ none)
    (h : Descends L parse x y)
    (hne : ¬ (parse x.date = parse y.date
      ∧ L.compare (orStr x.id "") (orStr y.id "") = 0)) :
    StrictlyDescends L parse x y := by
  rcases h with h | ⟨ht, hc⟩
  · exact Or.inl h
  · right
    refine ⟨ht, ?_⟩
    rcases lt_or_eq_of_le hc with hlt | heq
    · exact hlt
    · exfalso
      apply hne
      refine ⟨?_, heq.symm⟩
      unfold datesTie at ht
      cases hm : parse x.date with
      | none => exact absurd hm hx
      | some m =>
        cases hn : parse y.date with
        | none => exact absurd hn hy
        | some n =>
          rw [hm, hn] at ht
          simp only at ht
          rw [ht]

/-- C1 (as amended). For every list of entries the sorted comic list is a
permutation of the input. When every date of the list parses, every adjacent
pair (`x` before `y`) of the sorted list is descending in (date, id):
`date(x) > date(y)`, or the dates are equal and `id(x) ≥ id(y)` in the
collation; and it is strictly descending when no two entries of the list have
both the same date and ids that collate as equal. -/
theorem sortedComics_perm_descending (L : Collator) (parse : String → Option Int)
    (comics : List ComicEntry) :
    (sortedComics L parse comics).Perm comics
    ∧ ((∀ c ∈ comics, parse c.date ≠ none) →
        List.Chain' (Descends L parse) (sortedComics L parse comics))
    ∧ ((∀ c ∈ comics, parse c.date ≠ none) →
        comics.Pairwise (fun x y => ¬ (parse x.date = parse y.date
          ∧ L.compare (orStr x.id "") (orStr y.id "") = 0)) →
        List.Chain' (StrictlyDescends L parse) (sortedComics L parse comics)) := by
  have hperm : (sortedComics L parse comics).Perm comics := arraySort_perm _ comics
  have hchain := arraySort_chain (byNewestFirst L parse) (byNewestFirst_total L parse) comics
  have hdesc : (∀ c ∈ comics, parse c.date ≠ none) →
      List.Chain' (Descends L parse) (sortedComics L parse comics) := by
    intro hp
    refine chain_imp_of_mem _ _ _ hchain ?_
    intro a ha b hb hab
    exact descends_of_sortKey L parse a b (hp a (hperm.mem_iff.mp ha))
      (hp b (hperm.mem_iff.mp hb)) hab
  refine ⟨hperm, hdesc, ?_⟩
  intro hp hdist
  have hdist2 : (sortedComics L parse comics).Pairwise (fun x y =>
      ¬ (parse x.date = parse y.date ∧ L.compare (orStr x.id "") (orStr y.id "") = 0)) := by
    refine (List.Perm.pairwise_iff ?_ hperm).mpr hdist
    intro x y hxy h
    exact hxy ⟨h.1.symm, L.eq_zero_comm _ _ h.2⟩
  refine chain_imp_of_mem _ _ _ (chain_and_pairwise _ _ _ (hdesc hp) hdist2) ?_
  intro a ha b hb hab
  exact strictlyDescends_of_descends L parse a b (hp a (hperm.mem_iff.mp ha))
    (hp b (hperm.mem_iff.mp hb)) hab.1 hab.2

/-- C1, the scenario of the specification: the entries `a` (2024-01-03), `b`
and `c` (both 2024-01-05) sort to `c`, `b`, `a`, a permutation of the input
whose adjacent pairs are strictly descending, so the latest panel shows `c`. -/
theorem sortedComics_perm_descending_witness :
    sortedComics codePointCollator parseIsoDate [entryA, entryB, entryC]
      = [entryC, entryB, entryA]
    ∧ (sortedComics codePointCollator parseIsoDate [entryA, entryB, entryC]).Perm
        [entryA, entryB, entryC]
    ∧ List.Chain' (StrictlyDescends codePointCollator parseIsoDate)
        (sortedComics codePointCollator parseIsoDate [entryA, entryB, entryC]) :=
  ⟨by decide,
   (sortedComics_perm_descending codePointCollator parseIsoDate [entryA, entryB, entryC]).1,
   (sortedComics_perm_descending codePointCollator parseIsoDate [entryA, entryB, entryC]).2.2
     (by decide) (by decide)⟩

/-- C1 fails as stated. Two entries with the same date and the same id stay
next to each other with neither before the other in (date, id); and two entries
whose dates do not parse keep their input order `a`, `b`, which ascends in
id. -/
theorem sortedComics_strict_counterexample :
    sortedComics codePointCollator parseIsoDate [entryA, entryA] = [entryA, entryA]
    ∧ ¬ StrictlyDescends codePointCollator parseIsoDate entryA entryA
    ∧ sortedComics codePointCollator parseIsoDate [undatedA, undatedB] = [undatedA, undatedB]
    ∧ ¬ StrictlyDescends codePointCollator parseIsoDate undatedA undatedB := by
  refine ⟨by decide, ?_, by decide, ?_⟩
  · have e : parseIsoDate entryA.date = some 1704240000000 := by decide
    rintro (h | ⟨_, h⟩)
    · unfold dateNewer at h
      rw [e] at h
      exact absurd h (by decide)
    · revert h
      decide
  · have e : parseIsoDate undatedA.date = none := by decide
    rintro (h | ⟨_, h⟩)
    · unfold dateNewer at h
      rw [e] at h
      exact h
    · revert h
      decide

/-! ## The result the language fixes -/

theorem tagFrom_map_snd {α : Type} (k : Nat) (l : List α) :
    (tagFrom k l).map Prod.snd = l := by
  induction l generalizing k with
  | nil => rfl
  | cons a t ih => simp [tagFrom, ih]

theorem tagFrom_mem {α : Type} (k : Nat) (l : List α) (p : Nat × α) (hp : p ∈ tagFrom k l) :
    k ≤ p.1 ∧ p.2 ∈ l := by
  induction l generalizing k with
  | nil => simp [tagFrom] at hp
  | cons a t ih =>
    simp only [tagFrom, List.mem_cons] at hp
    rcases hp with r | r
    · subst r
      exact ⟨Nat.le_refl _, by simp⟩
    · obtain ⟨h1, h2⟩ := ih (k + 1) r
      exact ⟨by omega, List.mem_cons_of_mem _ h2⟩

theorem mem_sortInsert {α : Type} (cmp : α → α → Option Int) (a x : α) (l : List α) :
    x ∈ sortInsert cmp a l ↔ x = a ∨ x ∈ l := by
  rw [(sortInsert_perm cmp a l).mem_iff]
  simp

theorem map_sortInsert {α β : Type} (f : β → α) (cmp : α → α → Option Int) (a : β)
    (l : List β) :
    (sortInsert (fun p q => cmp (f p) (f q)) a l).map f = sortInsert cmp (f a) (l.map f) := by
  induction l with
  | nil => rfl
  | cons b t ih =>
    simp only [sortInsert, List.map_cons]
    split_ifs
    · rfl
    · simp [ih]

theorem map_arraySort {α β : Type} (f : β → α) (cmp : α → α → Option Int) (l : List β) :
    (arraySort (fun p q => cmp (f p) (f q)) l).map f = arraySort cmp (l.map f) := by
  induction l with
  | nil => rfl
  | cons b t ih => simp only [arraySort, List.map_cons, map_sortInsert, ih]

/-- Inserting an element that came before all others in the input keeps every
element where it may stand. -/
theorem sortInsert_precedes {α : Type} (cmp : α → α → Option Int)
    (hswap : ∀ a b, sortKey (cmp a b) < 0 ↔ 0 < sortKey (cmp b a))
    (a : Nat × α) (t : List (Nat × α))
    (htrans : ∀ y ∈ t, ∀ z ∈ t, sortKey (cmp a.2 y.2) ≤ 0 → sortKey (cmp y.2 z.2) ≤ 0 →
      sortKey (cmp a.2 z.2) ≤ 0)
    (hidx : ∀ q ∈ t, a.1 < q.1) (ht : t.Pairwise (Precedes cmp)) :
    (sortInsert (fun p q => cmp p.2 q.2) a t).Pairwise (Precedes cmp) := by
  induction t with
  | nil => simp [sortInsert]
  | cons b u ih =>
    rw [List.pairwise_cons] at ht
    simp only [sortInsert]
    split_ifs with h
    · rw [List.pairwise_cons]
      refine ⟨?_, List.pairwise_cons.mpr ht⟩
      intro q hq
      have hle : sortKey (cmp a.2 q.2) ≤ 0 := by
        rcases List.mem_cons.mp hq with r | r
        · rw [r]; exact h
        · have hbq : sortKey (cmp b.2 q.2) ≤ 0 := by
            rcases ht.1 q r with c | c
            · omega
            · omega
          exact htrans b (by simp) q hq h hbq
      rcases lt_or_eq_of_le hle with c | c
      · exact Or.inl c
      · exact Or.inr ⟨c, hidx q hq⟩
    · rw [List.pairwise_cons]
      constructor
      · intro q hq
        rcases (mem_sortInsert _ a q u).mp hq with r | r
        · rw [r]
          left
          exact (hswap b.2 a.2).mpr (by omega)
        · exact ht.1 q r
      · apply ih
        · intro y hy z hz
          exact htrans y (List.mem_cons_of_mem _ hy) z (List.mem_cons_of_mem _ hz)
        · intro q hq
          exact hidx q (List.mem_cons_of_mem _ hq)
        · exact ht.2

/-- The stable insertion sort of a list tagged with rising positions puts every
element where it may stand, when the comparator is consistent on the list. -/
theorem arraySort_precedes {α : Type} (cmp : α → α → Option Int)
    (hswap : ∀ a b, sortKey (cmp a b) < 0 ↔ 0 < sortKey (cmp b a))
    (t : List (Nat × α))
    (hcons : ∀ x ∈ t, ∀ y ∈ t, ∀ z ∈ t, sortKey (cmp x.2 y.2) ≤ 0 →
      sortKey (cmp y.2 z.2) ≤ 0 → sortKey (cmp x.2 z.2) ≤ 0)
    (hidx : t.Pairwise (fun p q => p.1 < q.1)) :
    (arraySort (fun p q => cmp p.2 q.2) t).Pairwise (Precedes cmp) := by
  induction t with
  | nil => simp [arraySort]
  | cons a u ih =>
    rw [List.pairwise_cons] at hidx
    simp only [arraySort]
    have hperm := arraySort_perm (fun p q : Nat × α => cmp p.2 q.2) u
    apply sortInsert_precedes cmp hswap
    · intro y hy z hz
      exact hcons a (by simp) y (List.mem_cons_of_mem _ (hperm.mem_iff.mp hy)) z
        (List.mem_cons_of_mem _ (hperm.mem_iff.mp hz))
    · intro q hq
      exact hidx.1 q (hperm.mem_iff.mp hq)
    · apply ih
      · intro x hx y hy z hz
        exact hcons x (List.mem_cons_of_mem _ hx) y (List.mem_cons_of_mem _ hy) z
          (List.mem_cons_of_mem _ hz)
      · exact hidx.2

theorem tagFrom_rising {α : Type} (k : Nat) (l : List α) :
    (tagFrom k l).Pairwise (fun p q => p.1 < q.1) := by
  induction l generalizing k with
  | nil => simp [tagFrom]
  | cons a t ih =>
    simp only [tagFrom, List.pairwise_cons]
    refine ⟨?_, ih (k + 1)⟩
    intro q hq
    have := (tagFrom_mem (k + 1) t q hq).1
    show k < q.1
    omega

theorem pair_sublist_of_mem {β : Type} (t : List β) (p q : β) (hp : p ∈ t) (hq : q ∈ t)
    (hne : p ≠ q) : List.Sublist [p, q] t ∨ List.Sublist [q, p] t := by
  induction t with
  | nil => simp at hp
  | cons x u ih =>
    rcases List.mem_cons.mp hp with rp | rp <;> rcases List.mem_cons.mp hq with rq | rq
    · exact absurd (rp.trans rq.symm) hne
    · left
      rw [rp]
      exact List.cons_sublist_cons.mpr (List.singleton_sublist.mpr rq)
    · right
      rw [rq]
      exact List.cons_sublist_cons.mpr (List.singleton_sublist.mpr rp)
    · rcases ih rp rq with h | h
      · exact Or.inl (h.trans (List.sublist_cons_self x u))
      · exact Or.inr (h.trans (List.sublist_cons_self x u))

theorem pair_sublist_cons {β : Type} (x : β) (u : List β) (p q : β)
    (h : List.Sublist [p, q] (x :: u)) : List.Sublist [p, q] u ∨ (p = x ∧ q ∈ u) := by
  rcases List.sublist_cons_iff.mp h with h1 | ⟨r, h1, h2⟩
  · exact Or.inl h1
  · right
    simp only [List.cons.injEq] at h1
    obtain ⟨e1, e2⟩ := h1
    subst e2
    exact ⟨e1, List.singleton_sublist.mp h2⟩

theorem pair_sublist_asymm {β : Type} (t : List β) (hnd : t.Nodup) (p q : β)
    (h1 : List.Sublist [p, q] t) (h2 : List.Sublist [q, p] t) : False := by
  induction t with
  | nil => simp at h1
  | cons x u ih =>
    rw [List.nodup_cons] at hnd
    rcases pair_sublist_cons x u p q h1 with a | ⟨a1, a2⟩ <;>
      rcases pair_sublist_cons x u q p h2 with b | ⟨b1, b2⟩
    · exact ih hnd.2 a b
    · have hq : q ∈ u := a.subset (by simp)
      rw [b1] at hq
      exact hnd.1 hq
    · have hp : p ∈ u := b.subset (by simp)
      rw [a1] at hp
      exact hnd.1 hp
    · rw [a1] at b2
      exact hnd.1 b2

theorem tagFrom_nodup {α : Type} (k : Nat) (l : List α) : (tagFrom k l).Nodup := by
  have h := tagFrom_rising k l
  exact h.imp (fun {a b} hab e => by rw [e] at hab; exact Nat.lt_irrefl _ hab)

/-- The conditions of the language, said of the rearranged positions, amount to
this: every element may stand before all those that follow it. -/
theorem sortsTo_iff_precedes {α : Type} (cmp : α → α → Option Int)
    (hswap : ∀ a b, sortKey (cmp a b) < 0 ↔ 0 < sortKey (cmp b a)) (l r : List α) :
    SortsTo cmp l r ↔ ∃ t : List (Nat × α), t.Perm (tagFrom 0 l)
      ∧ t.Pairwise (Precedes cmp) ∧ t.map Prod.snd = r := by
  constructor
  · rintro ⟨t, hp, hr, hord, hstab⟩
    refine ⟨t, hp, ?_, hr⟩
    have hnd : t.Nodup := hp.nodup_iff.mpr (tagFrom_nodup 0 l)
    have hidx : ∀ p ∈ t, ∀ q ∈ t, p.1 = q.1 → p = q := by
      have hr := tagFrom_rising 0 l
      have hpw : (tagFrom 0 l).Pairwise (fun a b => a.1 ≠ b.1) :=
        hr.imp (fun {a b} hab => Nat.ne_of_lt hab)
      have hpw2 : t.Pairwise (fun a b => a.1 ≠ b.1) :=
        (List.Perm.pairwise_iff (fun {a b} h => h.symm) hp).mpr hpw
      intro p hp' q hq' e
      by_contra hne
      exact List.Pairwise.forall (fun a b h => h.symm) hpw2 hp' hq' hne e
    rw [List.pairwise_iff_forall_sublist]
    intro p q hpq
    have hpm : p ∈ t := hpq.subset (by simp)
    have hqm : q ∈ t := hpq.subset (by simp)
    have hs := hswap p.2 q.2
    have hs2 := hswap q.2 p.2
    rcases lt_trichotomy (sortKey (cmp p.2 q.2)) 0 with c | c | c
    · exact Or.inl c
    · have c2 : sortKey (cmp q.2 p.2) = 0 := by
        by_contra hne
        rcases lt_or_gt_of_ne hne with d | d
        · have := hs2.mp d
          omega
        · have := hs.mpr d
          omega
      rcases lt_trichotomy p.1 q.1 with d | d | d
      · exact Or.inr ⟨c, d⟩
      · exfalso
        have e := hidx p hpm q hqm d
        rw [e] at hpq
        exact pair_sublist_asymm t hnd q q hpq hpq
      · exfalso
        exact pair_sublist_asymm t hnd p q hpq (hstab q hqm p hpm c2 d)
    · exfalso
      exact pair_sublist_asymm t hnd p q hpq (hord q hqm p hpm (hs2.mpr c))
  · rintro ⟨t, hp, hs, hr⟩
    refine ⟨t, hp, hr, ?_, ?_⟩
    · intro p hpm q hqm c
      have hne : p ≠ q := by
        intro e
        rw [e] at c
        have := (hswap q.2 q.2).mp c
        omega
      rcases pair_sublist_of_mem t p q hpm hqm hne with h | h
      · exact h
      · exfalso
        have := (hswap p.2 q.2).mp c
        rcases List.pairwise_iff_forall_sublist.mp hs h with d | ⟨d, _⟩
        · have := (hswap q.2 p.2).mp d
          omega
        · omega
    · intro p hpm q hqm c d
      have hne : p ≠ q := by
        intro e
        rw [e] at d
        exact Nat.lt_irrefl _ d
      rcases pair_sublist_of_mem t p q hpm hqm hne with h | h
      · exact h
      · exfalso
        rcases List.pairwise_iff_forall_sublist.mp hs h with e | ⟨_, e⟩
        · have := (hswap q.2 p.2).mp e
          omega
        · omega

/-- With a consistent comparator the stable insertion sort returns a result the
language allows. -/
theorem sortsTo_arraySort {α : Type} (cmp : α → α → Option Int)
    (hswap : ∀ a b, sortKey (cmp a b) < 0 ↔ 0 < sortKey (cmp b a))
    (l : List α) (hcons : Consistent cmp l) : SortsTo cmp l (arraySort cmp l) := by
  rw [sortsTo_iff_precedes cmp hswap]
  refine ⟨arraySort (fun p q => cmp p.2 q.2) (tagFrom 0 l), arraySort_perm _ _, ?_, ?_⟩
  · apply arraySort_precedes cmp hswap
    · intro x hx y hy z hz
      exact hcons x.2 (tagFrom_mem 0 l x hx).2 y.2 (tagFrom_mem 0 l y hy).2 z.2
        (tagFrom_mem 0 l z hz).2
    · exact tagFrom_rising 0 l
  · rw [map_arraySort Prod.snd cmp, tagFrom_map_snd]

/-- The language allows at most one result. -/
theorem sortsTo_unique {α : Type} (cmp : α → α → Option Int)
    (hswap : ∀ a b, sortKey (cmp a b) < 0 ↔ 0 < sortKey (cmp b a))
    (l r1 r2 : List α) (h1 : SortsTo cmp l r1) (h2 : SortsTo cmp l r2) : r1 = r2 := by
  obtain ⟨t1, p1, s1, e1⟩ := (sortsTo_iff_precedes cmp hswap l r1).mp h1
  obtain ⟨t2, p2, s2, e2⟩ := (sortsTo_iff_precedes cmp hswap l r2).mp h2
  haveI : IsAntisymm (Nat × α) (Precedes cmp) := ⟨by
    intro p q hpq hqp
    exfalso
    have hs := hswap p.2 q.2
    have hs2 := hswap q.2 p.2
    rcases hpq with a | ⟨a, a2⟩ <;> rcases hqp with b | ⟨b, b2⟩
    · have := hs.mp a
      omega
    · have := hs.mp a
      omega
    · have := hs2.mp b
      omega
    · omega⟩
  have : t1 = t2 := List.eq_of_perm_of_sorted (p1.trans p2.symm) s1 s2
  rw [← e1, ← e2, this]

theorem byNewestFirst_swap (L : Collator) (parse : String → Option Int) (a b : ComicEntry) :
    sortKey (byNewestFirst L parse a b) < 0 ↔ 0 < sortKey (byNewestFirst L parse b a) := by
  cases ha : parse a.date with
  | none =>
    rw [byNewestFirst_nan L parse a b (Or.inl ha), byNewestFirst_nan L parse b a (Or.inr ha)]
    simp [sortKey]
  | some m =>
    cases hb : parse b.date with
    | none =>
      rw [byNewestFirst_nan L parse a b (Or.inr hb), byNewestFirst_nan L parse b a (Or.inl hb)]
      simp [sortKey]
    | some n =>
      by_cases hmn : m = n
      · subst hmn
        rw [byNewestFirst_dates_equal L parse a b m ha hb,
          byNewestFirst_dates_equal L parse b a m hb ha]
        exact L.compare_swap _ _
      · rw [byNewestFirst_dates_differ L parse a b m n ha hb hmn,
          byNewestFirst_dates_differ L parse b a n m hb ha (fun e => hmn e.symm)]
        simp only [sortKey]
        omega

/-- When every date of a list parses and the collation is transitive,
`byNewestFirst` is consistent on the list. -/
theorem byNewestFirst_consistent (L : Collator) (parse : String → Option Int)
    (comics : List ComicEntry) (hparse : ∀ c ∈ comics, parse c.date ≠ none)
    (hL : L.Transitive) : Consistent (byNewestFirst L parse) comics := by
  intro x hx y hy z hz hxy hyz
  obtain ⟨m, hm⟩ := Option.ne_none_iff_exists'.mp (hparse x hx)
  obtain ⟨n, hn⟩ := Option.ne_none_iff_exists'.mp (hparse y hy)
  obtain ⟨k, hk⟩ := Option.ne_none_iff_exists'.mp (hparse z hz)
  have key : ∀ (u v : ComicEntry) (p q : Int), parse u.date = some p → parse v.date = some q →
      (sortKey (byNewestFirst L parse u v) ≤ 0 ↔
        q < p ∨ (p = q ∧ L.compare (orStr v.id "") (orStr u.id "") ≤ 0)) := by
    intro u v p q hp hq
    by_cases hpq : p = q
    · subst hpq
      rw [byNewestFirst_dates_equal L parse u v p hp hq]
      simp [sortKey]
    · rw [byNewestFirst_dates_differ L parse u v p q hp hq hpq]
      simp only [sortKey]
      constructor
      · intro h
        left
        omega
      · rintro (h | ⟨h, _⟩)
        · omega
        · exact absurd h hpq
  rw [key x y m n hm hn] at hxy
  rw [key y z n k hn hk] at hyz
  rw [key x z m k hm hk]
  rcases hxy with h1 | ⟨h1, c1⟩ <;> rcases hyz with h2 | ⟨h2, c2⟩
  · left; omega
  · left; omega
  · left; omega
  · right
    exact ⟨h1.trans h2, hL _ _ _ c2 c1⟩

theorem compareCodes_trans (x y z : List Nat) (h1 : compareCodes x y ≤ 0)
    (h2 : compareCodes y z ≤ 0) : compareCodes x z ≤ 0 := by
  induction x generalizing y z with
  | nil => cases z <;> simp [compareCodes]
  | cons a t ih =>
    cases y with
    | nil => simp [compareCodes] at h1
    | cons b u =>
      cases z with
      | nil => simp [compareCodes] at h2
      | cons c v =>
        simp only [compareCodes] at h1 h2 ⊢
        by_cases hab : a < b
        · by_cases hbc : b < c
          · have : a < c := by omega
            simp [this]
          · by_cases hcb : c < b
            · simp [hbc, hcb] at h2
            · have : a < c := by omega
              simp [this]
        · by_cases hba : b < a
          · simp [hab, hba] at h1
          · simp only [hab, hba, if_false] at h1
            by_cases hbc : b < c
            · have : a < c := by omega
              simp [this]
            · by_cases hcb : c < b
              · simp [hbc, hcb] at h2
              · simp only [hbc, hcb, if_false] at h2
                have e1 : ¬ a < c := by omega
                have e2 : ¬ c < a := by omega
                simp only [e1, e2, if_false]
                exact ih u v h1 h2

theorem codePointCollator_transitive : codePointCollator.Transitive := by
  intro x y z h1 h2
  exact compareCodes_trans _ _ _ h1 h2

/-- C8 (as amended). Sorting is deterministic and idempotent for every list of
entries on which `byNewestFirst` is a consistent comparator, repeated ids
included; every list whose dates all parse is one, the collation being
transitive. For such a list the conditions of the language allow exactly one
result of `[...comics].sort(byNewestFirst)`, the sorted comic list, so every run
on every host yields that sequence; and sorting that sequence again is allowed
exactly one result, the sequence itself. -/
theorem sort_fixed_and_idempotent (L : Collator) (parse : String → Option Int)
    (comics : List ComicEntry) :
    ((∀ c ∈ comics, parse c.date ≠ none) → L.Transitive →
      Consistent (byNewestFirst L parse) comics)
    ∧ (Consistent (byNewestFirst L parse) comics →
        SortsTo (byNewestFirst L parse) comics (sortedComics L parse comics)
        ∧ (∀ r, SortsTo (byNewestFirst L parse) comics r → r = sortedComics L parse comics)
        ∧ SortsTo (byNewestFirst L parse) (sortedComics L parse comics)
            (sortedComics L parse comics)
        ∧ (∀ r, SortsTo (byNewestFirst L parse) (sortedComics L parse comics) r →
            r = sortedComics L parse comics)
        ∧ sortedComics L parse (sortedComics L parse comics) = sortedComics L parse comics) := by
  refine ⟨byNewestFirst_consistent L parse comics, ?_⟩
  intro hcons
  have hswap := byNewestFirst_swap L parse
  have hperm : (sortedComics L parse comics).Perm comics := arraySort_perm _ comics
  have hfix : sortedComics L parse (sortedComics L parse comics) = sortedComics L parse comics :=
    arraySort_of_chain _ _
      (arraySort_chain (byNewestFirst L parse) (byNewestFirst_total L parse) comics)
  have hcons2 : Consistent (byNewestFirst L parse) (sortedComics L parse comics) := by
    intro x hx y hy z hz
    exact hcons x (hperm.mem_iff.mp hx) y (hperm.mem_iff.mp hy) z (hperm.mem_iff.mp hz)
  have h1 : SortsTo (byNewestFirst L parse) comics (sortedComics L parse comics) :=
    sortsTo_arraySort _ hswap comics hcons
  have h2 : SortsTo (byNewestFirst L parse) (sortedComics L parse comics)
      (sortedComics L parse comics) := by
    have h := sortsTo_arraySort _ hswap (sortedComics L parse comics) hcons2
    have e : arraySort (byNewestFirst L parse) (sortedComics L parse comics)
        = sortedComics L parse comics := hfix
    rw [e] at h
    exact h
  exact ⟨h1, fun r hr => sortsTo_unique _ hswap comics r _ hr h1, h2,
    fun r hr => sortsTo_unique _ hswap _ r _ hr h2, hfix⟩

/-- C8, an instance: every date of the scenario's manifest parses, so the
language allows one result for it, `c`, `b`, `a`; sorting that again gives it
back, and the sort V8 runs returns it as well. The same holds for a manifest
with repeated ids. -/
theorem sort_fixed_and_idempotent_witness :
    SortsTo (byNewestFirst codePointCollator parseIsoDate) [entryA, entryB, entryC]
      [entryC, entryB, entryA]
    ∧ (∀ r, SortsTo (byNewestFirst codePointCollator parseIsoDate) [entryA, entryB, entryC] r →
        r = [entryC, entryB, entryA])
    ∧ sortedComics codePointCollator parseIsoDate [entryC, entryB, entryA]
        = [entryC, entryB, entryA]
    ∧ shortTimSort (byNewestFirst codePointCollator parseIsoDate) [entryA, entryB, entryC]
        = [entryC, entryB, entryA]
    ∧ (∀ r, SortsTo (byNewestFirst codePointCollator parseIsoDate)
        [twinFirst, entryA, twinSecond, entryA] r →
        r = [entryA, entryA, twinFirst, twinSecond]) := by
  have e : sortedComics codePointCollator parseIsoDate [entryA, entryB, entryC]
      = [entryC, entryB, entryA] := by decide
  have e2 : sortedComics codePointCollator parseIsoDate [twinFirst, entryA, twinSecond, entryA]
      = [entryA, entryA, twinFirst, twinSecond] := by decide
  have h := (sort_fixed_and_idempotent codePointCollator parseIsoDate
    [entryA, entryB, entryC]).2
    ((sort_fixed_and_idempotent codePointCollator parseIsoDate [entryA, entryB, entryC]).1
      (by decide) codePointCollator_transitive)
  have h2 := (sort_fixed_and_idempotent codePointCollator parseIsoDate
    [twinFirst, entryA, twinSecond, entryA]).2
    ((sort_fixed_and_idempotent codePointCollator parseIsoDate
      [twinFirst, entryA, twinSecond, entryA]).1 (by decide) codePointCollator_transitive)
  rw [e] at h
  rw [e2] at h2
  exact ⟨h.1, h.2.1, h.2.2.2.2, by decide, h2.2.1⟩

/-- C8 fails as stated for a manifest with an unparseable date among parseable
ones. On `a` (2024-01-03), `c` (2024-01-05), an undated entry and `b`
(2024-01-05), `byNewestFirst` reads `a` and the undated entry as equal, the
undated entry and `b` as equal, yet puts `b` before `a`: it is not consistent,
no rearrangement meets the conditions of the language, and the order is the
host's. The stable insertion sort returns `c`, `a`, undated, `b`; the sort V8
runs returns `c`, `b`, `a`, undated. -/
theorem sort_unparseable_counterexample :
    sortKey (byNewestFirst codePointCollator parseIsoDate entryA undatedA) = 0
    ∧ sortKey (byNewestFirst codePointCollator parseIsoDate undatedA entryB) = 0
    ∧ 0 < sortKey (byNewestFirst codePointCollator parseIsoDate entryA entryB)
    ∧ ¬ Consistent (byNewestFirst codePointCollator parseIsoDate) mixedComics
    ∧ (∀ r, ¬ SortsTo (byNewestFirst codePointCollator parseIsoDate) mixedComics r)
    ∧ sortedComics codePointCollator parseIsoDate mixedComics
        = [entryC, entryA, undatedA, entryB]
    ∧ shortTimSort (byNewestFirst codePointCollator parseIsoDate) mixedComics
        = [entryC, entryB, entryA, undatedA]
    ∧ sortedComics codePointCollator parseIsoDate mixedComics
        ≠ shortTimSort (byNewestFirst codePointCollator parseIsoDate) mixedComics := by
  refine ⟨by decide, by decide, by decide, ?_, ?_, by decide, by decide, by decide⟩
  · intro h
    have := h entryA (by decide) undatedA (by decide) entryB (by decide) (by decide) (by decide)
    revert this
    decide
  · intro r hr
    obtain ⟨t, hp, hs, _⟩ := (sortsTo_iff_precedes _
      (byNewestFirst_swap codePointCollator parseIsoDate) mixedComics r).mp hr
    have hmem : t ∈ (tagFrom 0 mixedComics).permutations' := List.mem_permutations'.mpr hp
    have hall : ∀ u ∈ (tagFrom 0 mixedComics).permutations',
        ¬ u.Pairwise (Precedes (byNewestFirst codePointCollator parseIsoDate)) := by
      decide
    exact hall t hmem hs

/-! ## The reader -/

theorem getAt_eq_some {α : Type} (xs : List α) (i : Int) (c : α) :
    getAt xs i = some c ↔ 0 ≤ i ∧ xs[i.toNat]? = some c := by
  unfold getAt
  split_ifs with h
  · constructor
    · intro h1; exact absurd h1 (by simp)
    · intro h1; omega
  · constructor
    · intro h1; exact ⟨by omega, h1⟩
    · intro h1; exact h1.2

theorem getAt_natCast {α : Type} (xs : List α) (i : Nat) : getAt xs (i : Int) = xs[i]? := by
  unfold getAt
  simp

theorem getAt_range {α : Type} (xs : List α) (i : Int) (c : α) (h : getAt xs i = some c) :
    0 ≤ i ∧ i < xs.length := by
  rw [getAt_eq_some] at h
  obtain ⟨h0, h1⟩ := h
  have := (List.getElem?_eq_some_iff.mp h1).1
  omega

theorem getAt_isSome {α : Type} (xs : List α) (i : Int) :
    (getAt xs i).isSome = true ↔ 0 ≤ i ∧ i < xs.length := by
  constructor
  · intro h
    obtain ⟨c, hc⟩ := Option.isSome_iff_exists.mp h
    exact getAt_range xs i c hc
  · intro ⟨h0, h1⟩
    unfold getAt
    have : ¬ i < 0 := by omega
    simp only [this, if_false]
    have h2 : i.toNat < xs.length := by omega
    simp [h2]

theorem findIndexFrom_spec {α : Type} (p : α → Bool) (xs : List α) (k : Nat) :
    (findIndexFrom p xs k = -1 ∧ ∀ c ∈ xs, p c = false)
    ∨ ∃ (i : Nat) (c : α), findIndexFrom p xs k = ((k + i : Nat) : Int) ∧ xs[i]? = some c
        ∧ p c = true ∧ ∀ j < i, ∀ d, xs[j]? = some d → p d = false := by
  induction xs generalizing k with
  | nil => left; simp [findIndexFrom]
  | cons a t ih =>
    simp only [findIndexFrom]
    by_cases hp : p a = true
    · right
      refine ⟨0, a, by simp [hp], by simp, hp, by simp⟩
    · have hp' : p a = false := by simpa using hp
      simp only [hp', Bool.false_eq_true, if_false]
      rcases ih (k + 1) with ⟨h1, h2⟩ | ⟨i, c, h1, h2, h3, h4⟩
      · left
        refine ⟨h1, ?_⟩
        intro c hc
        rcases List.mem_cons.mp hc with r | r
        · rw [r]; exact hp'
        · exact h2 c r
      · right
        refine ⟨i + 1, c, ?_, by simpa using h2, h3, ?_⟩
        · rw [h1]; push_cast; ring
        · intro j hj d hd
          cases j with
          | zero =>
            simp at hd
            rw [← hd]; exact hp'
          | succ j =>
            simp at hd
            exact h4 j (by omega) d hd

/-- What `findIndex` returns: `-1` when no element satisfies the predicate,
else the first position whose element does. -/
theorem findIndex_spec {α : Type} (p : α → Bool) (xs : List α) :
    (findIndex p xs = -1 ∧ ∀ c ∈ xs, p c = false)
    ∨ ∃ (i : Nat) (c : α), findIndex p xs = (i : Int) ∧ xs[i]? = some c
        ∧ p c = true ∧ ∀ j < i, ∀ d, xs[j]? = some d → p d = false := by
  unfold findIndex
  rcases findIndexFrom_spec p xs 0 with h | ⟨i, c, h1, h2⟩
  · exact Or.inl h
  · exact Or.inr ⟨i, c, by simpa using h1, h2⟩

theorem renderReader_eq (s : State) (c : ComicEntry)
    (h : getAt s.comics s.currentIndex = some c) : renderReader s = some (renderComic s c) := by
  simp [renderReader, h]

theorem renderReader_some (s s1 : State) (h : renderReader s = some s1) :
    ∃ c, getAt s.comics s.currentIndex = some c ∧ s1 = renderComic s c := by
  unfold renderReader at h
  cases hc : getAt s.comics s.currentIndex with
  | none => simp [hc] at h
  | some c =>
    simp only [hc, Option.some.injEq] at h
    exact ⟨c, rfl, h.symm⟩

theorem renderComic_shows (s : State) (c : ComicEntry) : Shows (renderComic s c) c :=
  ⟨rfl, rfl, rfl, rfl⟩

theorem setBtn_onclick (o : Option ComicEntry) : (setBtn o.isSome o).onclick = o := by
  cases o <;> rfl

theorem setBtn_ariaDisabled (o : Option ComicEntry) :
    (setBtn o.isSome o).ariaDisabled = !o.isSome := by
  cases o <;> rfl

/-- After `setHash` on a freshly rendered state, reader, buttons and fragment
agree with the current index, provided the hash written is that of the current
entry. -/
theorem synced_setHash_renderComic (s : State) (c : ComicEntry) (id : Option String)
    (h : getAt s.comics s.currentIndex = some c) (hid : c.id = id) :
    Synced (setHash id (renderComic s c)) := by
  refine ⟨?_, c, h, ?_⟩
  · have h2 : getAt (setHash id (renderComic s c)).comics
        (setHash id (renderComic s c)).currentIndex = some c := h
    rw [renderReader_eq _ c h2]
    rfl
  · rw [hid]
    rfl

theorem synced_openReader (s : State) (h : Synced s) : Synced (openReader s) := by
  obtain ⟨h1, c, h2, h3⟩ := h
  obtain ⟨d, hd, he⟩ := renderReader_some s s h1
  refine ⟨?_, c, h2, h3⟩
  have h4 : getAt (openReader s).comics (openReader s).currentIndex = some d := hd
  rw [renderReader_eq _ d h4]
  congr 1
  conv_rhs => rw [he]
  rfl

theorem synced_closeReader (s : State) (h : Synced s) : Synced (closeReader s) := by
  obtain ⟨h1, c, h2, h3⟩ := h
  obtain ⟨d, hd, he⟩ := renderReader_some s s h1
  refine ⟨?_, c, h2, h3⟩
  have h4 : getAt (closeReader s).comics (closeReader s).currentIndex = some d := hd
  rw [renderReader_eq _ d h4]
  congr 1
  conv_rhs => rw [he]
  rfl

/-- In a state that rendering leaves as it is, the handlers bound to the buttons
are the entries next to the current one and the first one. -/
theorem rendered_buttons (s : State) (h1 : renderReader s = some s) :
    s.btnPrev.onclick = getAt s.comics (s.currentIndex + 1)
    ∧ s.btnNext.onclick = getAt s.comics (s.currentIndex - 1)
    ∧ s.btnLatest.onclick = getAt s.comics 0 := by
  obtain ⟨d, _, he⟩ := renderReader_some s s h1
  refine ⟨?_, ?_, ?_⟩
  · conv_lhs => rw [he]
    exact setBtn_onclick _
  · conv_lhs => rw [he]
    exact setBtn_onclick _
  · conv_lhs => rw [he]
    exact setBtn_onclick _

theorem synced_shows (s : State) (h : Synced s) :
    ∃ c, getAt s.comics s.currentIndex = some c ∧ Shows s c
      ∧ s.locationHash = "#c=" ++ encodeURIComponent c.id := by
  obtain ⟨h1, c, h2, h3⟩ := h
  obtain ⟨d, hd, he⟩ := renderReader_some s s h1
  have hcd : c = d := by
    rw [h2] at hd
    exact Option.some.inj hd
  subst hcd
  refine ⟨c, h2, ?_, h3⟩
  rw [he]
  exact renderComic_shows s c

theorem openComicById_absent (s : State) (id : Option String)
    (h : ∀ c ∈ s.comics, c.id ≠ id) : openComicById id s = some s := by
  unfold openComicById
  rcases findIndex_spec (fun c => decide (c.id = id)) s.comics with ⟨h1, _⟩ | ⟨i, c, _, h2, h3, _⟩
  · simp [h1]
  · exfalso
    have hmem : c ∈ s.comics := List.getElem?_mem h2
    exact h c hmem (by simpa using h3)

theorem openComicById_found (s : State) (id : Option String)
    (h : ∃ c ∈ s.comics, c.id = id) :
    ∃ (i : Nat) (c : ComicEntry), s.comics[i]? = some c ∧ c.id = id
      ∧ (∀ j < i, ∀ d, s.comics[j]? = some d → d.id ≠ id)
      ∧ openComicById id s
          = some (openReader (setHash id (renderComic { s with currentIndex := (i : Int) } c))) := by
  unfold openComicById
  rcases findIndex_spec (fun c => decide (c.id = id)) s.comics with ⟨_, h2⟩ | ⟨i, c, h1, h2, h3, h4⟩
  · exfalso
    obtain ⟨c, hc, hid⟩ := h
    have := h2 c hc
    simp [hid] at this
  · refine ⟨i, c, h2, by simpa using h3, ?_, ?_⟩
    · intro j hj d hd
      simpa using h4 j hj d hd
    · have hne : (i : Int) ≠ -1 := by omega
      have hg : getAt ({ s with currentIndex := (i : Int) } : State).comics
          ({ s with currentIndex := (i : Int) } : State).currentIndex = some c := by
        show getAt s.comics (i : Int) = some c
        rw [getAt_natCast]
        exact h2
      simp only [h1, hne, if_false]
      rw [renderReader_eq _ c hg]

theorem clickPrev_bound (s : State) (p : ComicEntry) (hs : renderReader s = some s)
    (hp : s.btnPrev.onclick = some p) :
    getAt s.comics (s.currentIndex + 1) = some p
    ∧ clickPrev s
        = some (setHash p.id (renderComic { s with currentIndex := s.currentIndex + 1 } p)) := by
  have hg : getAt s.comics (s.currentIndex + 1) = some p := by
    rw [← (rendered_buttons s hs).1]
    exact hp
  refine ⟨hg, ?_⟩
  unfold clickPrev
  simp only [hp]
  rw [renderReader_eq _ p (by exact hg)]

theorem clickNext_bound (s : State) (p : ComicEntry) (hs : renderReader s = some s)
    (hp : s.btnNext.onclick = some p) :
    getAt s.comics (s.currentIndex - 1) = some p
    ∧ clickNext s
        = some (setHash p.id (renderComic { s with currentIndex := s.currentIndex - 1 } p)) := by
  have hg : getAt s.comics (s.currentIndex - 1) = some p := by
    rw [← (rendered_buttons s hs).2.1]
    exact hp
  refine ⟨hg, ?_⟩
  unfold clickNext
  simp only [hp]
  rw [renderReader_eq _ p (by exact hg)]

theorem clickLatest_bound (s : State) (p : ComicEntry) (hs : renderReader s = some s)
    (hp : s.btnLatest.onclick = some p) :
    getAt s.comics 0 = some p
    ∧ clickLatest s = some (setHash p.id (renderComic { s with currentIndex := 0 } p)) := by
  have hg : getAt s.comics 0 = some p := by
    rw [← (rendered_buttons s hs).2.2]
    exact hp
  refine ⟨hg, ?_⟩
  unfold clickLatest
  simp only [hp]
  rw [renderReader_eq _ p (by exact hg)]

theorem sessionInv_bound (s : State) (h : SessionInv s)
    (hb : s.btnPrev.onclick ≠ none ∨ s.btnNext.onclick ≠ none ∨ s.btnLatest.onclick ≠ none
      ∨ s.readerOpen = true) : Synced s := by
  rcases h with ⟨⟨h1, h2, h3⟩, h4, _⟩ | h
  · rcases hb with r | r | r | r
    · exact absurd h1 r
    · exact absurd h2 r
    · exact absurd h3 r
    · rw [h4] at r
      exact absurd r (by decide)
  · exact h

theorem inv_openComicById (id : Option String) (s : State) (h : SessionInv s) :
    ∃ s1, openComicById id s = some s1 ∧ SessionInv s1 ∧ s1.comics = s.comics
      ∧ ((∃ c ∈ s.comics, c.id = id) → Synced s1) := by
  by_cases hex : ∃ c ∈ s.comics, c.id = id
  · obtain ⟨i, c, hc, hid, _, ho⟩ := openComicById_found s id hex
    have hs : Synced (openReader (setHash id
        (renderComic { s with currentIndex := (i : Int) } c))) := by
      apply synced_openReader
      apply synced_setHash_renderComic _ c id _ hid
      show getAt s.comics (i : Int) = some c
      rw [getAt_natCast]
      exact hc
    exact ⟨_, ho, Or.inr hs, rfl, fun _ => hs⟩
  · have ha : ∀ c ∈ s.comics, c.id ≠ id := by
      intro c hc hid
      exact hex ⟨c, hc, hid⟩
    exact ⟨s, openComicById_absent s id ha, h, rfl, fun hn => absurd hn hex⟩

theorem inv_clickPrev (s : State) (h : SessionInv s) :
    ∃ s1, clickPrev s = some s1 ∧ SessionInv s1 ∧ s1.comics = s.comics
      ∧ (s.btnPrev.onclick ≠ none → Synced s1) := by
  cases hp : s.btnPrev.onclick with
  | none =>
    refine ⟨s, ?_, h, rfl, fun hn => absurd rfl hn⟩
    unfold clickPrev
    simp only [hp]
  | some p =>
    have hs : Synced s := sessionInv_bound s h (Or.inl (by simp [hp]))
    obtain ⟨hg, hc⟩ := clickPrev_bound s p hs.1 hp
    have hs1 := synced_setHash_renderComic { s with currentIndex := s.currentIndex + 1 } p p.id
      hg rfl
    exact ⟨_, hc, Or.inr hs1, rfl, fun _ => hs1⟩

theorem inv_clickNext (s : State) (h : SessionInv s) :
    ∃ s1, clickNext s = some s1 ∧ SessionInv s1 ∧ s1.comics = s.comics
      ∧ (s.btnNext.onclick ≠ none → Synced s1) := by
  cases hp : s.btnNext.onclick with
  | none =>
    refine ⟨s, ?_, h, rfl, fun hn => absurd rfl hn⟩
    unfold clickNext
    simp only [hp]
  | some p =>
    have hs : Synced s := sessionInv_bound s h (Or.inr (Or.inl (by simp [hp])))
    obtain ⟨hg, hc⟩ := clickNext_bound s p hs.1 hp
    have hs1 := synced_setHash_renderComic { s with currentIndex := s.currentIndex - 1 } p p.id
      hg rfl
    exact ⟨_, hc, Or.inr hs1, rfl, fun _ => hs1⟩

theorem inv_clickLatest (s : State) (h : SessionInv s) :
    ∃ s1, clickLatest s = some s1 ∧ SessionInv s1 ∧ s1.comics = s.comics
      ∧ (s.btnLatest.onclick ≠ none → Synced s1) := by
  cases hp : s.btnLatest.onclick with
  | none =>
    refine ⟨s, ?_, h, rfl, fun hn => absurd rfl hn⟩
    unfold clickLatest
    simp only [hp]
  | some p =>
    have hs : Synced s := sessionInv_bound s h (Or.inr (Or.inr (Or.inl (by simp [hp]))))
    obtain ⟨hg, hc⟩ := clickLatest_bound s p hs.1 hp
    have hs1 := synced_setHash_renderComic { s with currentIndex := 0 } p p.id hg rfl
    exact ⟨_, hc, Or.inr hs1, rfl, fun _ => hs1⟩

theorem inv_closeReader (s : State) (h : SessionInv s) : SessionInv (closeReader s) := by
  rcases h with ⟨hu, _, h0⟩ | h
  · exact Or.inl ⟨hu, rfl, h0⟩
  · exact Or.inr (synced_closeReader s h)

theorem inv_keydown (key : String) (s : State) (h : SessionInv s) :
    ∃ s1, keydown key s = some s1 ∧ SessionInv s1 ∧ s1.comics = s.comics
      ∧ (Navigates (.keydown key) s → Synced s1) := by
  unfold keydown
  by_cases hk : key = "Escape"
  · subst hk
    refine ⟨closeReader s, ?_, inv_closeReader s h, rfl, ?_⟩
    · simp [closeReader]
    · rintro ⟨_, ⟨hl, _⟩ | ⟨hr, _⟩⟩
      · exact absurd hl (by decide)
      · exact absurd hr (by decide)
  · simp only [hk, if_false]
    by_cases ho : s.readerOpen = true
    · simp only [ho, Bool.not_true, Bool.false_eq_true, if_false]
      by_cases hl : key = "ArrowLeft"
      · subst hl
        obtain ⟨s1, h1, h2, h3, h4⟩ := inv_clickPrev s h
        refine ⟨s1, by simpa using h1, h2, h3, ?_⟩
        rintro ⟨_, ⟨_, hb⟩ | ⟨hr, _⟩⟩
        · exact h4 hb
        · exact absurd hr (by decide)
      · simp only [hl, if_false]
        by_cases hr : key = "ArrowRight"
        · subst hr
          obtain ⟨s1, h1, h2, h3, h4⟩ := inv_clickNext s h
          refine ⟨s1, by simpa using h1, h2, h3, ?_⟩
          rintro ⟨_, ⟨hl2, _⟩ | ⟨_, hb⟩⟩
          · exact absurd hl2 (by decide)
          · exact h4 hb
        · simp only [hr, if_false]
          refine ⟨s, rfl, h, rfl, ?_⟩
          rintro ⟨_, ⟨hl2, _⟩ | ⟨hr2, _⟩⟩
          · exact absurd hl2 hl
          · exact absurd hr2 hr
    · have ho2 : s.readerOpen = false := by simpa using ho
      simp only [ho2, Bool.not_false, if_true]
      refine ⟨s, rfl, h, rfl, ?_⟩
      rintro ⟨ho3, _⟩
      exact absurd ho3 ho

/-- Every event keeps the session invariant and the comic list, never throws,
and a navigation that succeeds leaves reader, buttons and fragment in
agreement with the new index. -/
theorem inv_step (a : Action) (s : State) (h : SessionInv s) :
    ∃ s1, step a s = some s1 ∧ SessionInv s1 ∧ s1.comics = s.comics
      ∧ (Navigates a s → Synced s1) := by
  cases a with
  | openComicById id => exact inv_openComicById id s h
  | clickPrev => exact inv_clickPrev s h
  | clickNext => exact inv_clickNext s h
  | clickLatest => exact inv_clickLatest s h
  | closeReader => exact ⟨closeReader s, rfl, inv_closeReader s h, rfl, fun hn => hn.elim⟩
  | keydown key => exact inv_keydown key s h

theorem inv_run (acts : List Action) (s : State) (h : SessionInv s) :
    ∃ s1, run acts s = some s1 ∧ SessionInv s1 ∧ s1.comics = s.comics := by
  induction acts generalizing s with
  | nil => exact ⟨s, rfl, h, rfl⟩
  | cons a t ih =>
    obtain ⟨s1, h1, h2, h3, _⟩ := inv_step a s h
    obtain ⟨s2, h4, h5, h6⟩ := ih s1 h2
    refine ⟨s2, ?_, h5, h6.trans h3⟩
    simp only [run, h1]
    exact h4

theorem inv_initState (comics : List ComicEntry) (hash0 : String) :
    SessionInv (initState comics hash0) :=
  Or.inl ⟨⟨rfl, rfl, rfl⟩, rfl, rfl⟩

theorem sessionInv_range (s : State) (h : SessionInv s) (hne : s.comics ≠ []) :
    0 ≤ s.currentIndex ∧ s.currentIndex < s.comics.length := by
  rcases h with ⟨_, _, h0⟩ | ⟨_, c, hc, _⟩
  · rw [h0]
    have : 0 < s.comics.length := List.length_pos.mpr hne
    omega
  · exact getAt_range _ _ c hc

theorem renderComic_fixed (s : State) (c : ComicEntry)
    (h : getAt s.comics s.currentIndex = some c) :
    renderReader (renderComic s c) = some (renderComic s c) := by
  have h2 : getAt (renderComic s c).comics (renderComic s c).currentIndex = some c := h
  rw [renderReader_eq _ c h2]
  rfl

/-- Rendering at the index of a synced state, from any state with the same
list, open flag and overflow style, and writing the hash of its entry, gives
the synced state back. -/
theorem synced_restore (s t : State) (c : ComicEntry) (hs : Synced s)
    (hc : getAt s.comics s.currentIndex = some c)
    (h1 : t.comics = s.comics) (h2 : t.currentIndex = s.currentIndex)
    (h3 : t.readerOpen = s.readerOpen) (h4 : t.bodyOverflow = s.bodyOverflow) :
    setHash c.id (renderComic t c) = s := by
  obtain ⟨hr, d, hd, hh⟩ := hs
  have hcd : d = c := by
    rw [hc] at hd
    exact (Option.some.inj hd).symm
  subst hcd
  obtain ⟨e, he1, he2⟩ := renderReader_some s s hr
  have hde : e = d := by
    rw [hc] at he1
    exact (Option.some.inj he1).symm
  subst hde
  have hfin : setHash e.id (renderComic t e) = setHash e.id (renderComic s e) := by
    cases s
    cases t
    simp only at h1 h2 h3 h4
    subst h1 h2 h3 h4
    rfl
  rw [hfin, ← he2]
  cases s
  simp only [setHash] at hh ⊢
  rw [← hh]

/-- C2 (as amended). For every state and every id: when some entry has the id,
`openComicById(id)` sets `currentIndex` to the position of the first entry with
that id, renders that entry in the reader, writes its fragment and opens the
reader; when no entry has the id, it leaves the whole state unchanged and does
not throw. -/
theorem openComicById_spec (s : State) (id : Option String) :
    ((∃ c ∈ s.comics, c.id = id) →
      ∃ (i : Nat) (c : ComicEntry) (s1 : State), openComicById id s = some s1
        ∧ s.comics[i]? = some c ∧ c.id = id
        ∧ (∀ j < i, ∀ d, s.comics[j]? = some d → d.id ≠ id)
        ∧ s1.comics = s.comics ∧ s1.currentIndex = (i : Int)
        ∧ getAt s1.comics s1.currentIndex = some c ∧ Shows s1 c
        ∧ s1.readerOpen = true
        ∧ s1.locationHash = "#c=" ++ encodeURIComponent id)
    ∧ ((∀ c ∈ s.comics, c.id ≠ id) → openComicById id s = some s) := by
  refine ⟨?_, openComicById_absent s id⟩
  intro h
  obtain ⟨i, c, hc, hid, hfirst, ho⟩ := openComicById_found s id h
  refine ⟨i, c, _, ho, hc, hid, hfirst, rfl, rfl, ?_, ⟨rfl, rfl, rfl, rfl⟩, rfl, rfl⟩
  show getAt s.comics (i : Int) = some c
  rw [getAt_natCast]
  exact hc

/-- C2, instances: in the scenario's list `c`, `b`, `a`, opening `b` lands on
index 1 with the reader open and showing `b`; opening an id no entry has
changes nothing. -/
theorem openComicById_spec_witness :
    (∃ s1, openComicById (some "b") (initState scenarioComics "") = some s1
      ∧ s1.currentIndex = 1 ∧ Shows s1 entryB ∧ s1.readerOpen = true
      ∧ s1.locationHash = "#c=b")
    ∧ openComicById (some "zz") (initState scenarioComics "#c=zz")
        = some (initState scenarioComics "#c=zz") := by
  refine ⟨?_, (openComicById_spec (initState scenarioComics "#c=zz") (some "zz")).2
    (by decide)⟩
  obtain ⟨i, c, s1, h1, h2, h3, h4, _, h6, _, h8, h9, h10⟩ :=
    (openComicById_spec (initState scenarioComics "") (some "b")).1 ⟨entryB, by decide, rfl⟩
  have hi : i = 1 := by
    have hlt : i < 3 := (List.getElem?_eq_some_iff.mp h2).1
    interval_cases i
    · exfalso
      simp [initState, scenarioComics] at h2
      rw [← h2] at h3
      revert h3
      decide
    · rfl
    · exfalso
      exact h4 1 (by omega) entryB rfl rfl
  subst hi
  have hc : c = entryB := by
    simp [initState, scenarioComics] at h2
    exact h2.symm
  subst hc
  exact ⟨s1, h1, h6, h8, h9, by rw [h10]; decide⟩

/-- C2 fails as stated when ids repeat: `twinSecond` has the id `x` and sits at
position 1 of the list, which is in sorted order, yet `openComicById("x")` sets
`currentIndex` to 0 and renders `twinFirst`. -/
theorem openComicById_repeated_id_counterexample :
    sortedComics codePointCollator parseIsoDate [twinFirst, twinSecond]
      = [twinFirst, twinSecond]
    ∧ [twinFirst, twinSecond][1]? = some twinSecond ∧ twinSecond.id = some "x"
    ∧ (openComicById (some "x") (initState [twinFirst, twinSecond] "")).map
        State.currentIndex = some 0
    ∧ (openComicById (some "x") (initState [twinFirst, twinSecond] "")).map
        State.readerTitle = some twinFirst.title
    ∧ twinFirst.title ≠ twinSecond.title := by
  decide

theorem option_none_iff {α : Type} (o : Option α) (P : Prop) [Decidable P]
    (h : o.isSome = true ↔ ¬ P) : ((!o.isSome) = true ↔ P) ∧ (o = none ↔ P) := by
  cases o with
  | none =>
    simp only [Option.isSome_none, Bool.false_eq_true, false_iff, not_not] at h
    simp [h]
  | some v =>
    simp only [Option.isSome_some, true_iff] at h
    simp [h]

/-- C3. For every state whose `currentIndex` lies within its non-empty list,
`renderReader` succeeds, and after it Previous is disabled (`aria-disabled`
set, no handler bound) exactly when `currentIndex` is the last index, and Next
exactly when `currentIndex` is 0. An enabled Previous holds the entry at
`currentIndex + 1` and a click on it moves there, renders that entry and writes
its fragment; an enabled Next does the same for `currentIndex - 1`. -/
theorem renderReader_buttons (s : State) (hlo : 0 ≤ s.currentIndex)
    (hhi : s.currentIndex < s.comics.length) :
    ∃ s1, renderReader s = some s1
      ∧ (s1.btnPrev.ariaDisabled = true ↔ s.currentIndex = s.comics.length - 1)
      ∧ (s1.btnPrev.onclick = none ↔ s.currentIndex = s.comics.length - 1)
      ∧ (s1.btnNext.ariaDisabled = true ↔ s.currentIndex = 0)
      ∧ (s1.btnNext.onclick = none ↔ s.currentIndex = 0)
      ∧ (∀ p, s1.btnPrev.onclick = some p →
          s1.btnPrev.ariaDisabled = false ∧ getAt s.comics (s.currentIndex + 1) = some p
          ∧ ∃ s2, clickPrev s1 = some s2 ∧ s2.currentIndex = s.currentIndex + 1
            ∧ Shows s2 p ∧ s2.locationHash = "#c=" ++ encodeURIComponent p.id)
      ∧ (∀ p, s1.btnNext.onclick = some p →
          s1.btnNext.ariaDisabled = false ∧ getAt s.comics (s.currentIndex - 1) = some p
          ∧ ∃ s2, clickNext s1 = some s2 ∧ s2.currentIndex = s.currentIndex - 1
            ∧ Shows s2 p ∧ s2.locationHash = "#c=" ++ encodeURIComponent p.id) := by
  have hsome : (getAt s.comics s.currentIndex).isSome = true :=
    (getAt_isSome _ _).mpr ⟨hlo, hhi⟩
  obtain ⟨c, hc⟩ := Option.isSome_iff_exists.mp hsome
  have hfix := renderComic_fixed s c hc
  have hprev : (getAt s.comics (s.currentIndex + 1)).isSome = true
      ↔ ¬ s.currentIndex = s.comics.length - 1 := by
    rw [getAt_isSome]
    omega
  have hnext : (getAt s.comics (s.currentIndex - 1)).isSome = true
      ↔ ¬ s.currentIndex = 0 := by
    rw [getAt_isSome]
    omega
  have hbp : (renderComic s c).btnPrev.onclick = getAt s.comics (s.currentIndex + 1) :=
    setBtn_onclick _
  have hbn : (renderComic s c).btnNext.onclick = getAt s.comics (s.currentIndex - 1) :=
    setBtn_onclick _
  have hap : (renderComic s c).btnPrev.ariaDisabled
      = !(getAt s.comics (s.currentIndex + 1)).isSome := setBtn_ariaDisabled _
  have han : (renderComic s c).btnNext.ariaDisabled
      = !(getAt s.comics (s.currentIndex - 1)).isSome := setBtn_ariaDisabled _
  refine ⟨renderComic s c, renderReader_eq s c hc, ?_, ?_, ?_, ?_, ?_, ?_⟩
  · rw [hap]
    exact (option_none_iff _ _ hprev).1
  · rw [hbp]
    exact (option_none_iff _ _ hprev).2
  · rw [han]
    exact (option_none_iff _ _ hnext).1
  · rw [hbn]
    exact (option_none_iff _ _ hnext).2
  · intro p hp
    obtain ⟨hg, hclick⟩ := clickPrev_bound (renderComic s c) p hfix hp
    refine ⟨?_, hg, _, hclick, rfl, ⟨rfl, rfl, rfl, rfl⟩, rfl⟩
    rw [hap]
    rw [hbp] at hp
    simp [hp]
  · intro p hp
    obtain ⟨hg, hclick⟩ := clickNext_bound (renderComic s c) p hfix hp
    refine ⟨?_, hg, _, hclick, rfl, ⟨rfl, rfl, rfl, rfl⟩, rfl⟩
    rw [han]
    rw [hbn] at hp
    simp [hp]

/-- C3, an instance: in the scenario's list at index 0, Next is disabled and
Previous is enabled and holds the entry `b`. -/
theorem renderReader_buttons_witness :
    ∃ s1, renderReader (initState scenarioComics "") = some s1
      ∧ s1.btnNext.ariaDisabled = true ∧ s1.btnNext.onclick = none
      ∧ s1.btnPrev.ariaDisabled = false ∧ s1.btnPrev.onclick = some entryB := by
  obtain ⟨s1, h1, _, h3, h4, h5, h6, _⟩ :=
    renderReader_buttons (initState scenarioComics "") (by decide) (by decide)
  have hs1 := Option.some.inj (h1.symm.trans
    (renderReader_eq (initState scenarioComics "") entryC (by decide)))
  have hb : s1.btnPrev.onclick = some entryB := by
    rw [hs1]
    decide
  exact ⟨s1, h1, h4.mpr rfl, h5.mpr rfl, (h6 entryB hb).1, hb⟩

/-- In a synced state with a handler on Previous, Previous then Next gives the
state back. -/
theorem synced_prev_next (s : State) (hs : Synced s) (hb : s.btnPrev.onclick ≠ none) :
    ∃ s1, clickPrev s = some s1 ∧ s1.currentIndex = s.currentIndex + 1
      ∧ s1.btnNext.onclick ≠ none ∧ clickNext s1 = some s := by
  obtain ⟨p, hp⟩ := Option.ne_none_iff_exists'.mp hb
  obtain ⟨hg, hclick⟩ := clickPrev_bound s p hs.1 hp
  obtain ⟨c, hc, _, _⟩ := synced_shows s hs
  have hs1 := synced_setHash_renderComic { s with currentIndex := s.currentIndex + 1 } p p.id
    hg rfl
  have hn : (setHash p.id (renderComic { s with currentIndex := s.currentIndex + 1 } p)).btnNext.onclick
      = some c := by
    rw [(rendered_buttons _ hs1.1).2.1]
    show getAt s.comics (s.currentIndex + 1 - 1) = some c
    rw [Int.add_sub_cancel]
    exact hc
  obtain ⟨_, hclick2⟩ := clickNext_bound _ c hs1.1 hn
  refine ⟨_, hclick, rfl, by rw [hn]; simp, ?_⟩
  rw [hclick2]
  congr 1
  refine synced_restore s _ c hs hc ?_ ?_ ?_ ?_
  · rfl
  · show s.currentIndex + 1 - 1 = s.currentIndex
    omega
  · rfl
  · rfl

/-- In a synced state with a handler on Next, Next then Previous gives the
state back. -/
theorem synced_next_prev (s : State) (hs : Synced s) (hb : s.btnNext.onclick ≠ none) :
    ∃ s1, clickNext s = some s1 ∧ s1.currentIndex = s.currentIndex - 1
      ∧ s1.btnPrev.onclick ≠ none ∧ clickPrev s1 = some s := by
  obtain ⟨p, hp⟩ := Option.ne_none_iff_exists'.mp hb
  obtain ⟨hg, hclick⟩ := clickNext_bound s p hs.1 hp
  obtain ⟨c, hc, _, _⟩ := synced_shows s hs
  have hs1 := synced_setHash_renderComic { s with currentIndex := s.currentIndex - 1 } p p.id
    hg rfl
  have hn : (setHash p.id (renderComic { s with currentIndex := s.currentIndex - 1 } p)).btnPrev.onclick
      = some c := by
    rw [(rendered_buttons _ hs1.1).1]
    show getAt s.comics (s.currentIndex - 1 + 1) = some c
    rw [Int.sub_add_cancel]
    exact hc
  obtain ⟨_, hclick2⟩ := clickPrev_bound _ c hs1.1 hn
  refine ⟨_, hclick, rfl, by rw [hn]; simp, ?_⟩
  rw [hclick2]
  congr 1
  refine synced_restore s _ c hs hc ?_ ?_ ?_ ?_
  · rfl
  · show s.currentIndex - 1 + 1 = s.currentIndex
    omega
  · rfl
  · rfl

/-- C4. In every state of a session in which the reader is open, the reader
shows the entry at `currentIndex` and the fragment is the one written for its
id. If Previous is enabled there, Previous moves to the next index and Next
then returns to the very same state (same index, same comic shown, same
fragment); if Next is enabled, Next and then Previous likewise. -/
theorem prev_next_roundtrip (comics : List ComicEntry) (hash0 : String)
    (acts : List Action) (s : State) (hrun : run acts (initState comics hash0) = some s)
    (hopen : s.readerOpen = true) :
    (∃ c, getAt s.comics s.currentIndex = some c ∧ Shows s c
      ∧ s.locationHash = "#c=" ++ encodeURIComponent c.id)
    ∧ (s.btnPrev.onclick ≠ none →
        ∃ s1, clickPrev s = some s1 ∧ s1.currentIndex = s.currentIndex + 1
          ∧ s1.btnNext.onclick ≠ none ∧ clickNext s1 = some s)
    ∧ (s.btnNext.onclick ≠ none →
        ∃ s1, clickNext s = some s1 ∧ s1.currentIndex = s.currentIndex - 1
          ∧ s1.btnPrev.onclick ≠ none ∧ clickPrev s1 = some s) := by
  obtain ⟨s1, h1, hinv, _⟩ := inv_run acts _ (inv_initState comics hash0)
  rw [hrun] at h1
  cases Option.some.inj h1
  have hs : Synced s := sessionInv_bound s hinv (Or.inr (Or.inr (Or.inr hopen)))
  exact ⟨synced_shows s hs, synced_prev_next s hs, synced_next_prev s hs⟩

/-- C4, an instance: with `b` open in the scenario's list (index 1), Previous
leads to index 2 and Next back to the same state, and Next leads to index 0 and
Previous back to the same state. -/
theorem prev_next_roundtrip_witness :
    run [Action.openComicById (some "b")] (initState scenarioComics "") = some scenarioAtB
    ∧ scenarioAtB.currentIndex = 1
    ∧ (∃ s1, clickPrev scenarioAtB = some s1 ∧ s1.currentIndex = scenarioAtB.currentIndex + 1
        ∧ s1.btnNext.onclick ≠ none ∧ clickNext s1 = some scenarioAtB)
    ∧ (∃ s1, clickNext scenarioAtB = some s1 ∧ s1.currentIndex = scenarioAtB.currentIndex - 1
        ∧ s1.btnPrev.onclick ≠ none ∧ clickPrev s1 = some scenarioAtB) :=
  ⟨by decide, by decide,
   (prev_next_roundtrip scenarioComics "" [Action.openComicById (some "b")] scenarioAtB
      (by decide) (by decide)).2.1 (by decide),
   (prev_next_roundtrip scenarioComics "" [Action.openComicById (some "b")] scenarioAtB
      (by decide) (by decide)).2.2 (by decide)⟩

/-- C10. For every non-empty list and every sequence of events from the state
`init` builds (opening any id, clicks on Previous, Next and Latest, closing,
keys), no event throws, the list stays the same and `currentIndex` stays within
it, so the lookup `STATE.comics[STATE.currentIndex]` of `renderReader` finds an
entry and `renderReader` succeeds. -/
theorem currentIndex_in_bounds (comics : List ComicEntry) (hne : comics ≠ [])
    (hash0 : String) (acts : List Action) :
    ∃ s, run acts (initState comics hash0) = some s ∧ s.comics = comics
      ∧ 0 ≤ s.currentIndex ∧ s.currentIndex < comics.length
      ∧ (∃ c, getAt s.comics s.currentIndex = some c)
      ∧ (∃ s1, renderReader s = some s1) := by
  obtain ⟨s, h1, hinv, hc⟩ := inv_run acts _ (inv_initState comics hash0)
  have hc2 : s.comics = comics := hc
  have hr := sessionInv_range s hinv (by rw [hc2]; exact hne)
  have hsome : (getAt s.comics s.currentIndex).isSome = true := (getAt_isSome _ _).mpr hr
  obtain ⟨c, hg⟩ := Option.isSome_iff_exists.mp hsome
  refine ⟨s, h1, hc2, hr.1, ?_, ⟨c, hg⟩, ⟨_, renderReader_eq s c hg⟩⟩
  rw [← hc2]
  exact hr.2

/-- C10, an instance: in the scenario's list, opening `a`, a Previous that is
disabled there, an unknown id, Next, Latest and Next again leave the index at 0,
within the three entries. -/
theorem currentIndex_in_bounds_witness :
    ∃ s, run [Action.openComicById (some "a"), Action.clickPrev,
          Action.openComicById (some "zz"), Action.clickNext, Action.clickLatest,
          Action.clickNext] (initState scenarioComics "") = some s
      ∧ s.currentIndex = 0 ∧ 0 ≤ s.currentIndex ∧ s.currentIndex < 3 := by
  obtain ⟨s, h1, _, h3, h4, _⟩ := currentIndex_in_bounds scenarioComics (by decide) ""
    [Action.openComicById (some "a"), Action.clickPrev, Action.openComicById (some "zz"),
      Action.clickNext, Action.clickLatest, Action.clickNext]
  refine ⟨s, h1, ?_, h3, h4⟩
  have h5 : (run [Action.openComicById (some "a"), Action.clickPrev,
      Action.openComicById (some "zz"), Action.clickNext, Action.clickLatest,
      Action.clickNext] (initState scenarioComics "")).map State.currentIndex = some 0 := by
    decide
  rw [h1] at h5
  exact Option.some.inj h5

/-! ## The fragment round trip -/

theorem char_valid (c : Char) : c.toNat < 0xD800 ∨ (0xDFFF < c.toNat ∧ c.toNat < 0x110000) :=
  c.valid

theorem utf8Decode_utf8Encode (c : Char) (rest : List Nat) :
    utf8Decode none (utf8Encode c ++ rest) = c :: utf8Decode none rest := by
  have hv := char_valid c
  have hof : Char.ofNat c.toNat = c := Char.ofNat_toNat c
  generalize hn : c.toNat = n at hv hof
  unfold utf8Encode
  simp only [hn]
  by_cases h1 : n < 0x80
  · have hl : leadByte n = Lead.emit c := by
      unfold leadByte
      have : n ≤ 0x7F := by omega
      simp [this, hof]
    simp [h1, utf8Decode, hl]
  · by_cases h2 : n < 0x800
    · have hl : leadByte (0xC0 + n / 64) = Lead.more (n / 64) 1 0x80 0xBF := by
        unfold leadByte
        have a1 : ¬ (0xC0 + n / 64 ≤ 0x7F) := by omega
        have a2 : 0xC2 ≤ 0xC0 + n / 64 ∧ 0xC0 + n / 64 ≤ 0xDF := by omega
        have a3 : (0xC0 + n / 64) % 32 = n / 64 := by omega
        simp only [a1, a2, a3, if_false, if_true, and_self]
      have hb : 0x80 ≤ 0x80 + n % 64 ∧ 0x80 + n % 64 ≤ 0xBF := by omega
      have hcp : n / 64 * 64 + (0x80 + n % 64) % 64 = n := by omega
      simp only [h1, h2, if_false, if_true, List.cons_append, List.nil_append, utf8Decode, hl,
        hb, and_self, hcp, hof]
    · by_cases h3 : n < 0x10000
      · have hl : leadByte (0xE0 + n / 4096) = Lead.more (n / 4096) 2
            (if 0xE0 + n / 4096 = 0xE0 then 0xA0 else 0x80)
            (if 0xE0 + n / 4096 = 0xED then 0x9F else 0xBF) := by
          unfold leadByte
          have a1 : ¬ (0xE0 + n / 4096 ≤ 0x7F) := by omega
          have a2 : ¬ (0xC2 ≤ 0xE0 + n / 4096 ∧ 0xE0 + n / 4096 ≤ 0xDF) := by omega
          have a3 : 0xE0 ≤ 0xE0 + n / 4096 ∧ 0xE0 + n / 4096 ≤ 0xEF := by omega
          have a4 : (0xE0 + n / 4096) % 16 = n / 4096 := by omega
          simp only [a1, a2, a3, a4, if_false, if_true, and_self]
        have hb2 : (if 0xE0 + n / 4096 = 0xE0 then 0xA0 else 0x80) ≤ 0x80 + n / 64 % 64
            ∧ 0x80 + n / 64 % 64 ≤ (if 0xE0 + n / 4096 = 0xED then 0x9F else 0xBF) := by
          constructor
          · split_ifs <;> omega
          · split_ifs <;> omega
        have hb3 : 0x80 ≤ 0x80 + n % 64 ∧ 0x80 + n % 64 ≤ 0xBF := by omega
        have hcp : (n / 4096 * 64 + (0x80 + n / 64 % 64) % 64) * 64 + (0x80 + n % 64) % 64 = n := by
          omega
        have h21 : ¬ (2 = 1) := by decide
        simp only [h1, h2, h3, if_false, if_true, List.cons_append, List.nil_append, utf8Decode,
          hl, hb2, hb3, and_self, hcp, hof, h21]
      · have hl : leadByte (0xF0 + n / 262144) = Lead.more (n / 262144) 3
            (if 0xF0 + n / 262144 = 0xF0 then 0x90 else 0x80)
            (if 0xF0 + n / 262144 = 0xF4 then 0x8F else 0xBF) := by
          unfold leadByte
          have a1 : ¬ (0xF0 + n / 262144 ≤ 0x7F) := by omega
          have a2 : ¬ (0xC2 ≤ 0xF0 + n / 262144 ∧ 0xF0 + n / 262144 ≤ 0xDF) := by omega
          have a3 : ¬ (0xE0 ≤ 0xF0 + n / 262144 ∧ 0xF0 + n / 262144 ≤ 0xEF) := by omega
          have a5 : 0xF0 ≤ 0xF0 + n / 262144 ∧ 0xF0 + n / 262144 ≤ 0xF4 := by omega
          have a4 : (0xF0 + n / 262144) % 8 = n / 262144 := by omega
          simp only [a1, a2, a3, a4, a5, if_false, if_true, and_self]
        have hb2 : (if 0xF0 + n / 262144 = 0xF0 then 0x90 else 0x80) ≤ 0x80 + n / 4096 % 64
            ∧ 0x80 + n / 4096 % 64 ≤ (if 0xF0 + n / 262144 = 0xF4 then 0x8F else 0xBF) := by
          constructor
          · split_ifs <;> omega
          · split_ifs <;> omega
        have hb3 : 0x80 ≤ 0x80 + n / 64 % 64 ∧ 0x80 + n / 64 % 64 ≤ 0xBF := by omega
        have hb4 : 0x80 ≤ 0x80 + n % 64 ∧ 0x80 + n % 64 ≤ 0xBF := by omega
        have hcp : ((n / 262144 * 64 + (0x80 + n / 4096 % 64) % 64) * 64
            + (0x80 + n / 64 % 64) % 64) * 64 + (0x80 + n % 64) % 64 = n := by
          omega
        have h31 : ¬ (3 = 1) := by decide
        have h21 : ¬ (3 - 1 = 1) := by decide
        have h32 : 3 - 1 - 1 = 1 := by decide
        simp only [h1, h2, h3, if_false, if_true, List.cons_append, List.nil_append, utf8Decode,
          hl, hb2, hb3, hb4, and_self, hcp, hof, h31, h21, h32]

theorem utf8Encode_lt (c : Char) : ∀ b ∈ utf8Encode c, b < 256 := by
  have hv := char_valid c
  intro b hb
  unfold utf8Encode at hb
  simp only at hb
  split_ifs at hb <;> simp at hb <;> omega

theorem utf8Encode_ascii (c : Char) (h : c.toNat < 128) : utf8Encode c = [c.toNat] := by
  unfold utf8Encode
  simp [h]

theorem hexDigit_spec (n : Nat) (h : n < 16) :
    (hexDigit n).toNat < 128 ∧ hexVal (hexDigit n).toNat = some n
    ∧ (hexDigit n).toNat ≠ 0x25 ∧ (hexDigit n).toNat ≠ 0x26 ∧ (hexDigit n).toNat ≠ 0x3D
    ∧ (hexDigit n).toNat ≠ 0x2B := by
  interval_cases n <;> decide

/-- The bytes of the escape `%XX` of one byte. -/
theorem percentByte_bytes (b : Nat) (hb : b < 256) :
    (percentByte b).flatMap utf8Encode
      = [0x25, (hexDigit (b / 16)).toNat, (hexDigit (b % 16)).toNat] := by
  have h1 := (hexDigit_spec (b / 16) (by omega)).1
  have h2 := (hexDigit_spec (b % 16) (by omega)).1
  have h0 : utf8Encode '%' = [0x25] := by decide
  simp [percentByte, List.flatMap_cons, utf8Encode_ascii _ h1, utf8Encode_ascii _ h2, h0]

theorem percentDecode_cons_of_ne (b : Nat) (rest : List Nat) (h : b ≠ 0x25) :
    percentDecode (b :: rest) = b :: percentDecode rest := by
  rcases rest with _ | ⟨x, _ | ⟨y, t⟩⟩
  · simp [percentDecode]
  · simp [percentDecode]
  · rw [percentDecode]
    simp [h]

theorem percentDecode_percentByte (b : Nat) (hb : b < 256) (rest : List Nat) :
    percentDecode ((percentByte b).flatMap utf8Encode ++ rest) = b :: percentDecode rest := by
  rw [percentByte_bytes b hb]
  have h1 := (hexDigit_spec (b / 16) (by omega)).2.1
  have h2 := (hexDigit_spec (b % 16) (by omega)).2.1
  show percentDecode (0x25 :: (hexDigit (b / 16)).toNat :: (hexDigit (b % 16)).toNat :: rest) = _
  rw [percentDecode]
  simp only [h1, h2, if_true]
  congr 1
  omega

theorem percentDecode_percentBytes (bs : List Nat) (hbs : ∀ b ∈ bs, b < 256)
    (rest : List Nat) :
    percentDecode ((bs.flatMap percentByte).flatMap utf8Encode ++ rest)
      = bs ++ percentDecode rest := by
  induction bs with
  | nil => simp
  | cons b t ih =>
    have hb : b < 256 := hbs b (by simp)
    have ht : ∀ x ∈ t, x < 256 := fun x hx => hbs x (List.mem_cons_of_mem _ hx)
    simp only [List.flatMap_cons, List.flatMap_append, List.append_assoc, List.cons_append]
    rw [percentDecode_percentByte b hb, ih ht]

theorem isUnreserved_spec (c : Char) (h : isUnreserved c = true) :
    c.toNat < 128 ∧ c.toNat ≠ 0x25 ∧ c.toNat ≠ 0x26 ∧ c.toNat ≠ 0x3D ∧ c.toNat ≠ 0x2B := by
  unfold isUnreserved at h
  simp only [decide_eq_true_eq] at h
  omega

/-- Percent-decoding the bytes of an encoded character gives its UTF-8
bytes. -/
theorem percentDecode_encodeChar (c : Char) (rest : List Nat) :
    percentDecode ((encodeChar c).flatMap utf8Encode ++ rest)
      = utf8Encode c ++ percentDecode rest := by
  unfold encodeChar
  by_cases h : isUnreserved c = true
  · obtain ⟨h1, h2, _⟩ := isUnreserved_spec c h
    simp only [h, if_true, List.flatMap_cons, List.flatMap_nil, List.append_nil,
      utf8Encode_ascii c h1, List.cons_append, List.nil_append]
    exact percentDecode_cons_of_ne _ _ h2
  · simp only [h, if_false]
    exact percentDecode_percentBytes _ (utf8Encode_lt c) rest

/-- Percent-decoding and UTF-8 decoding invert `encodeURIComponent`. -/
theorem decode_encodeChars (cs : List Char) :
    utf8Decode none (percentDecode ((encodeChars cs).flatMap utf8Encode)) = cs := by
  induction cs with
  | nil => rfl
  | cons c t ih =>
    have e : (encodeChars (c :: t)).flatMap utf8Encode
        = (encodeChar c).flatMap utf8Encode ++ (encodeChars t).flatMap utf8Encode := by
      simp [encodeChars, List.flatMap_cons, List.flatMap_append]
    rw [e, percentDecode_encodeChar, utf8Decode_utf8Encode, ih]

/-- The bytes of an encoded string hold no `&`, `=` or `+`. -/
theorem encodeChars_bytes_plain (cs : List Char) :
    ∀ b ∈ (encodeChars cs).flatMap utf8Encode, b ≠ 0x26 ∧ b ≠ 0x3D ∧ b ≠ 0x2B := by
  intro b hb
  simp only [encodeChars, List.mem_flatMap] at hb
  obtain ⟨x, ⟨c, _, hx⟩, hbx⟩ := hb
  unfold encodeChar at hx
  by_cases h : isUnreserved c = true
  · rw [if_pos h, List.mem_singleton] at hx
    subst hx
    obtain ⟨h1, _, h3, h4, h5⟩ := isUnreserved_spec x h
    rw [utf8Encode_ascii x h1] at hbx
    simp only [List.mem_singleton] at hbx
    subst hbx
    exact ⟨h3, h4, h5⟩
  · rw [if_neg h, List.mem_flatMap] at hx
    obtain ⟨y, hy, hxy⟩ := hx
    have hy2 := utf8Encode_lt c y hy
    have hmem : b ∈ (percentByte y).flatMap utf8Encode :=
      List.mem_flatMap.mpr ⟨x, hxy, hbx⟩
    rw [percentByte_bytes y hy2] at hmem
    have g1 := hexDigit_spec (y / 16) (by omega)
    have g2 := hexDigit_spec (y % 16) (by omega)
    simp only [List.mem_cons, List.mem_singleton, List.not_mem_nil, or_false] at hmem
    rcases hmem with r | r | r
    · subst r; decide
    · subst r; exact ⟨g1.2.2.2.1, g1.2.2.2.2.1, g1.2.2.2.2.2⟩
    · subst r; exact ⟨g2.2.2.2.1, g2.2.2.2.2.1, g2.2.2.2.2.2⟩

theorem splitOnByte_of_absent (sep : Nat) (l : List Nat) (h : ∀ b ∈ l, b ≠ sep) :
    splitOnByte sep l = [l] := by
  induction l with
  | nil => rfl
  | cons b t ih =>
    have hb : b ≠ sep := h b (by simp)
    have ht := ih (fun x hx => h x (List.mem_cons_of_mem _ hx))
    simp [splitOnByte, hb, ht]

theorem plusToSpace_of_absent (l : List Nat) (h : ∀ b ∈ l, b ≠ 0x2B) : plusToSpace l = l := by
  unfold plusToSpace
  induction l with
  | nil => rfl
  | cons b t ih =>
    have hb : b ≠ 0x2B := h b (by simp)
    have ht := ih (fun x hx => h x (List.mem_cons_of_mem _ hx))
    simp only [List.map_cons, hb, if_false, ht]

/-- The parameter list of a fragment `c=` followed by an encoded string is the
single pair of `c` and the string. -/
theorem urlSearchParams_encoded (cs : List Char) :
    urlSearchParams ⟨'c' :: '=' :: encodeChars cs⟩ = [("c", ⟨cs⟩)] := by
  have hplain := encodeChars_bytes_plain cs
  generalize hE : (encodeChars cs).flatMap utf8Encode = E at hplain
  have hbytes : ('c' :: '=' :: encodeChars cs).flatMap utf8Encode = 0x63 :: 0x3D :: E := by
    have hc : utf8Encode 'c' = [0x63] := by decide
    have he : utf8Encode '=' = [0x3D] := by decide
    simp [List.flatMap_cons, hc, he, hE]
  have hsplit : splitOnByte 0x26 (0x63 :: 0x3D :: E) = [0x63 :: 0x3D :: E] := by
    apply splitOnByte_of_absent
    intro b hb
    rcases List.mem_cons.mp hb with r | hb
    · subst r; decide
    rcases List.mem_cons.mp hb with r | hb
    · subst r; decide
    · exact (hplain b hb).1
  have hplus : plusToSpace E = E :=
    plusToSpace_of_absent E (fun b hb => (hplain b hb).2.2)
  have hdec := decode_encodeChars cs
  rw [hE] at hdec
  unfold urlSearchParams
  show parseUrlencoded (('c' :: '=' :: encodeChars cs).flatMap utf8Encode) = _
  rw [hbytes]
  unfold parseUrlencoded
  rw [hsplit]
  simp only [List.filter, List.isEmpty_cons, Bool.not_false, List.map_cons, List.map_nil]
  unfold parsePair
  have hname : List.takeWhile (fun b => b != 0x3D) (0x63 :: 0x3D :: E) = [0x63] := by
    simp [List.takeWhile]
  have hval : (List.dropWhile (fun b => b != 0x3D) (0x63 :: 0x3D :: E)).drop 1 = E := by
    simp [List.dropWhile]
  simp only [hname, hval, hplus, hdec]
  rfl

/-- The fragment `setHash` writes is read back by `getHashComic` as the string
that was written. -/
theorem getHashComic_setHash (x : Option String) :
    getHashComic ("#c=" ++ encodeURIComponent x) = some (toStr x) := by
  unfold getHashComic
  have hd : ("#c=" ++ encodeURIComponent x).data
      = '#' :: 'c' :: '=' :: encodeChars (toStr x).data := by
    rw [String.data_append]
    rfl
  simp only [hd]
  rw [urlSearchParams_encoded]
  simp [searchGet]

theorem bootstrap_of_fragment (s : State) (X : String)
    (h : s.locationHash = "#c=" ++ encodeURIComponent (some X)) :
    bootstrap s = if X = "" then some s else openComicById (some X) s := by
  unfold bootstrap
  rw [h, getHashComic_setHash]
  rfl

/-- C5 (as amended). For every comic id `X` (any string, the empty one and ids
with `&`, `=`, `+`, `#`, `%` or spaces included) the fragment `setHash(X)`
writes is read back by `getHashComic` as exactly `X`. For every manifest with an
entry of id `X`, `X` not empty, `init` run with the fragment `c=<encoded X>`
opens the reader on the first entry of the sorted list whose id is `X`
(`currentIndex` is its position) and leaves the fragment as it is. With the
empty string as `X` the bootstrap opens nothing. -/
theorem fragment_roundtrip (L : Collator) (parse : String → Option Int)
    (comics : List ComicEntry) (X : String) :
    (∀ s : State, getHashComic (setHash (some X) s).locationHash = some X)
    ∧ (X ≠ "" → (∃ c ∈ comics, c.id = some X) →
        ∃ (i : Nat) (c : ComicEntry) (s1 : State),
          init L parse comics ("#c=" ++ encodeURIComponent (some X)) = some s1
          ∧ s1.comics = sortedComics L parse comics
          ∧ s1.comics[i]? = some c ∧ c.id = some X
          ∧ (∀ j < i, ∀ d, s1.comics[j]? = some d → d.id ≠ some X)
          ∧ s1.currentIndex = (i : Int) ∧ Shows s1 c ∧ s1.readerOpen = true
          ∧ s1.locationHash = "#c=" ++ encodeURIComponent (some X))
    ∧ (X = "" → init L parse comics ("#c=" ++ encodeURIComponent (some X))
        = some (initState (sortedComics L parse comics)
            ("#c=" ++ encodeURIComponent (some X)))) := by
  refine ⟨fun s => getHashComic_setHash (some X), ?_, ?_⟩
  · intro hX ⟨c, hc, hid⟩
    have hperm : (sortedComics L parse comics).Perm comics := arraySort_perm _ comics
    have hmem : c ∈ sortedComics L parse comics := hperm.mem_iff.mpr hc
    have hlen : ¬ (sortedComics L parse comics).length = 0 := by
      intro h0
      rw [List.length_eq_zero] at h0
      rw [h0] at hmem
      exact absurd hmem (List.not_mem_nil c)
    obtain ⟨i, d, hd, hdid, hfirst, ho⟩ := openComicById_found
      (initState (sortedComics L parse comics) ("#c=" ++ encodeURIComponent (some X)))
      (some X) ⟨c, hmem, hid⟩
    have hinit : init L parse comics ("#c=" ++ encodeURIComponent (some X))
        = some (openReader (setHash (some X) (renderComic
            { initState (sortedComics L parse comics)
                ("#c=" ++ encodeURIComponent (some X)) with currentIndex := (i : Int) } d))) := by
      unfold init
      simp only []
      split_ifs with h0
      · exact absurd h0 hlen
      · rw [bootstrap_of_fragment _ X rfl, if_neg hX]
        exact ho
    exact ⟨i, d, _, hinit, rfl, hd, hdid, hfirst, rfl, ⟨rfl, rfl, rfl, rfl⟩, rfl, rfl⟩
  · intro hX
    unfold init
    simp only []
    split_ifs with h0
    · rfl
    · rw [bootstrap_of_fragment _ X rfl, if_pos hX]

/-- C5, instances: the id `a b&c=é+#%` goes through the fragment unchanged,
and the scenario's manifest loaded with the fragment `c=b` opens on index 1,
where `b` sits in the sorted list. -/
theorem fragment_roundtrip_witness :
    getHashComic (setHash (some "a b&c=é+#%") (initState [] "")).locationHash
      = some "a b&c=é+#%"
    ∧ ∃ (i : Nat) (c : ComicEntry) (s1 : State),
        init codePointCollator parseIsoDate [entryA, entryB, entryC]
          ("#c=" ++ encodeURIComponent (some "b")) = some s1
        ∧ s1.comics = sortedComics codePointCollator parseIsoDate [entryA, entryB, entryC]
        ∧ s1.comics[i]? = some c ∧ c.id = some "b"
        ∧ (∀ j < i, ∀ d, s1.comics[j]? = some d → d.id ≠ some "b")
        ∧ s1.currentIndex = (i : Int) ∧ Shows s1 c ∧ s1.readerOpen = true
        ∧ s1.locationHash = "#c=" ++ encodeURIComponent (some "b") :=
  ⟨(fragment_roundtrip codePointCollator parseIsoDate [] "a b&c=é+#%").1 (initState [] ""),
   (fragment_roundtrip codePointCollator parseIsoDate [entryA, entryB, entryC] "b").2.1
     (by decide) ⟨entryB, by decide, rfl⟩⟩

/-- C5 fails as stated for the empty id: the manifest holds an entry whose id
is the empty string, the fragment `c=` is the one written for it and reads back
as the empty string, yet `init` leaves the reader closed and unrendered. It also
fails when ids repeat: `twinSecond` has the id `x` and sits at position 1 of the
sorted list, yet `init` with the fragment `c=x` opens index 0 and shows
`twinFirst`. -/
theorem bootstrap_empty_id_counterexample :
    blankIdEntry.id = some ""
    ∧ "#c=" ++ encodeURIComponent (some "") = "#c="
    ∧ getHashComic "#c=" = some ""
    ∧ init codePointCollator parseIsoDate [blankIdEntry] "#c="
        = some (initState [blankIdEntry] "#c=")
    ∧ (initState [blankIdEntry] "#c=").readerOpen = false
    ∧ openComicById (some "") (initState [blankIdEntry] "#c=")
        ≠ some (initState [blankIdEntry] "#c=")
    ∧ sortedComics codePointCollator parseIsoDate [twinFirst, twinSecond]
        = [twinFirst, twinSecond]
    ∧ [twinFirst, twinSecond][1]? = some twinSecond ∧ twinSecond.id = some "x"
    ∧ (init codePointCollator parseIsoDate [twinFirst, twinSecond]
        ("#c=" ++ encodeURIComponent (some "x"))).map State.currentIndex = some 0
    ∧ (init codePointCollator parseIsoDate [twinFirst, twinSecond]
        ("#c=" ++ encodeURIComponent (some "x"))).map State.readerTitle
          = some twinFirst.title := by
  decide

/-- C9. In every state of a session, either no navigation has rendered the
reader yet (it is closed and its buttons hold no handler), or the reader shows
the entry at `currentIndex` and the fragment is the one written for that
entry's id. After every navigation that succeeds there (opening an id some
entry has, an enabled Previous, Next or Latest, an arrow key doing such a
click), the event does not throw, the entry at the new `currentIndex` is the
one rendered in the reader, the fragment is the one `setHash` writes for its
id, and `getHashComic` reads that id back. -/
theorem navigation_syncs_fragment (comics : List ComicEntry) (hash0 : String)
    (acts : List Action) (s : State) (a : Action)
    (hrun : run acts (initState comics hash0) = some s) (hnav : Navigates a s) :
    ((Unbound s ∧ s.readerOpen = false) ∨
      ∃ c, getAt s.comics s.currentIndex = some c ∧ Shows s c
        ∧ s.locationHash = "#c=" ++ encodeURIComponent c.id)
    ∧ ∃ s1 c, step a s = some s1 ∧ s1.comics = comics
        ∧ getAt s1.comics s1.currentIndex = some c ∧ Shows s1 c
        ∧ s1.locationHash = (setHash c.id s1).locationHash
        ∧ (∀ X, c.id = some X → getHashComic s1.locationHash = some X) := by
  obtain ⟨s0, h1, hinv, hc⟩ := inv_run acts _ (inv_initState comics hash0)
  rw [hrun] at h1
  cases Option.some.inj h1
  constructor
  · rcases hinv with ⟨hu, ho, _⟩ | hs
    · exact Or.inl ⟨hu, ho⟩
    · exact Or.inr (synced_shows s hs)
  · obtain ⟨s1, hstep, _, hc1, hsync⟩ := inv_step a s hinv
    obtain ⟨c, hg, hshow, hhash⟩ := synced_shows s1 (hsync hnav)
    refine ⟨s1, c, hstep, hc1.trans hc, hg, hshow, hhash, ?_⟩
    intro X hX
    rw [hhash, hX]
    exact getHashComic_setHash (some X)

/-- C9, an instance: in the scenario's list, after opening `a` and clicking
Next, a click on Latest leaves the reader on `c` with the fragment `#c=c`. -/
theorem navigation_syncs_fragment_witness :
    ∃ s s1 c, run [Action.openComicById (some "a"), Action.clickNext]
        (initState scenarioComics "#c=zz") = some s
      ∧ step Action.clickLatest s = some s1 ∧ s1.comics = scenarioComics
      ∧ getAt s1.comics s1.currentIndex = some c ∧ Shows s1 c
      ∧ s1.locationHash = (setHash c.id s1).locationHash
      ∧ (∀ X, c.id = some X → getHashComic s1.locationHash = some X) := by
  obtain ⟨s, hs, _⟩ := inv_run [Action.openComicById (some "a"), Action.clickNext]
    (initState scenarioComics "#c=zz") (inv_initState _ _)
  have hb : (run [Action.openComicById (some "a"), Action.clickNext]
      (initState scenarioComics "#c=zz")).map (fun t => t.btnLatest.onclick) = some (some entryC) := by
    decide
  rw [hs] at hb
  have hb2 : s.btnLatest.onclick = some entryC := Option.some.inj hb
  obtain ⟨_, s1, c, h⟩ := navigation_syncs_fragment scenarioComics "#c=zz"
    [Action.openComicById (some "a"), Action.clickNext] s Action.clickLatest hs
    (by show s.btnLatest.onclick ≠ none; rw [hb2]; simp)
  exact ⟨s, s1, c, hs, h⟩

end Webcmeo
